import Mathlib

/-!
Verification development for `Math_Library/prime.py`: a shallow embedding of
the prime-related routines (`_primes_list`, `_is_prime`, `_mobius_list`,
`_pollard_rho`, `prime_divisor_decomposition`, `all_divisors`) together with
theorems settling the specification claims about them.

Modelling conventions:
  * Python unbounded integers are `Nat` (all routines only ever see
    non-negative values); signed intermediate values (`y - x` inside Pollard's
    rho) are computed in `Int`.
  * The numpy boolean array used by the wheel sieve is modelled as the bits of
    a natural number: bit `j` of the mask is entry `sieve[j]`.  The numpy
    slice assignment `sieve[start::step] = False` becomes `sliceClear`, which
    clears the bits `start, start+step, ...` below the array size.
  * `set(P10K)` is likewise modelled as a bit set (`P10Kset`), membership
    being `Nat.testBit`; the bridge lemma `P10Kset_testBit` identifies this
    with list membership.
  * Unbounded `while` loops are given an explicit fuel argument and return
    `Option` results; `none` means the loop did not finish within the fuel,
    so a genuinely divergent loop (e.g. stripping factors of 2 from n = 0)
    returns `none` for every fuel.
  * The random draws of `random.randrange` / `random.randint` are passed in
    explicitly: `prime_divisor_decomposition` receives a stream
    `σ : Nat → Nat × Nat` of Pollard seed pairs (consumed one pair per call,
    exactly as the Python code draws `x, c` afresh per `_pollard_rho` call),
    and `_is_prime` receives a stream of Miller-Rabin witness draws.
  * The library prefers `gmpy2.is_prime` when importable and only falls back
    to the Miller-Rabin `_is_prime`; inside the factorization engine we model
    `is_prime` by an exact executable primality test (`is_prime`, bridged to
    `Nat.Prime` by `is_prime_iff`), matching the contract of the accelerated
    primitive.  `_is_prime` itself is embedded separately and verified in C4.
  * `strictNat n k` is definitionally `k n` (lemma `strictNat_eq`); it is
    inserted at a few recursion sites solely so that concrete evaluation by
    `decide` forces accumulators eagerly.  It does not change any value.
  * From the `base` module the source imports `cprod`, `gcd`, `sqrt`, `isqrt`.
    These are the spec's external "integer arithmetic provider": `cprod` is
    the product of a list, `gcd` the exact integer gcd (`Int.gcd`), and
    `sqrt`/`isqrt` the floor integer square root; `int(sqrt(n))` is modelled
    as `isqrt n`, implemented here by fuelled binary search and proved equal
    to `Nat.sqrt` (`isqrt_eq`).
-/

set_option maxRecDepth 1000000
set_option maxHeartbeats 16000000
set_option exponentiation.threshold 20000

/-- Evaluation helper: `strictNat n k = k n` (see `strictNat_eq`).  Used only
to force strict evaluation of accumulators during kernel reduction. -/
def strictNat {α : Type} (n : Nat) (k : Nat → α) : α := if n = 0 then k 0 else k n

/-- Modelled from the spec: floor integer square root of the external
arithmetic provider (`base.sqrt` / `base.isqrt`), by binary search on the
interval `[lo, hi)` with explicit fuel. -/
def sqrtAux (n : Nat) : Nat → Nat → Nat → Nat
  | lo, _, 0 => lo
  | lo, hi, f+1 =>
    if hi ≤ lo + 1 then lo
    else if (lo + hi) / 2 * ((lo + hi) / 2) ≤ n then sqrtAux n ((lo + hi) / 2) hi f
    else sqrtAux n lo ((lo + hi) / 2) f

/-- Modelled from the spec: `isqrt n` is the floor integer square root
(proved equal to `Nat.sqrt` in `isqrt_eq`). -/
def isqrt (n : Nat) : Nat := sqrtAux n 0 (n+1) (n+2)

/-- Modelled from the spec: `cprod` from the `base` module, the product of a
list of integers. -/
def cprod (l : List Nat) : Nat := l.prod

/-- The number represented by wheel-sieve index `i`: `(3*i + 1) | 1`. -/
def wheelVal (i : Nat) : Nat := (3 * i + 1) ||| 1

/-- Size of the wheel sieve array: `n//3 + (n % 6 == 2)`. -/
def wheelSize (n : Nat) : Nat := n / 3 + (if n % 6 = 2 then 1 else 0)

/-- Clear bits `start, start + step, ...` (`t` of them) of the mask `m`. -/
def clearEvery : Nat → Nat → Nat → Nat → Nat
  | _, _, 0, m => m
  | start, step, t+1, m =>
    strictNat (if m.testBit start then m - 2 ^ start else m)
      (fun m2 => clearEvery (start + step) step t m2)

/-- Number of indices `start, start + step, ...` lying below `size`. -/
def markCount (size start step : Nat) : Nat := (size - start + step - 1) / step

/-- The numpy slice assignment `sieve[start::step] = False` on a boolean
array of length `size`, acting on its bit-mask representation. -/
def sliceClear (size m start step : Nat) : Nat :=
  clearEvery start step (markCount size start step) m

/-- One iteration of the wheel-sieve marking loop of `_primes_list`:
`if sieve[i]: k = (3*i+1)|1; sieve[k*k//3::2*k] = False;
sieve[k*(k - 2*(i&1) + 4)//3::2*k] = False`. -/
def sieveStep (n m i : Nat) : Nat :=
  if m.testBit i then
    sliceClear (wheelSize n)
      (sliceClear (wheelSize n) m (wheelVal i * wheelVal i / 3) (2 * wheelVal i))
      (wheelVal i * (wheelVal i - 2 * (i &&& 1) + 4) / 3) (2 * wheelVal i)
  else m

/-- The sieve mask after running the marking loop of `_primes_list` for
`i in range(1, int(sqrt(n))//3 + 1)` on the all-ones array. -/
def sieveMask (n : Nat) : Nat :=
  (List.range' 1 (isqrt n / 3)).foldl (sieveStep n) (2 ^ wheelSize n - 1)

/-- `_primes_list(n)` from prime.py: the wheel sieve of Eratosthenes for
residues coprime to 6, returning `np.r_[2, 3, ((3*np.nonzero(sieve)[0][1:]
+ 1) | 1)]` as a list. -/
def _primes_list (n : Nat) : List Nat :=
  2 :: 3 ::
    (((List.range (wheelSize n)).filter (fun i => (sieveMask n).testBit i)).drop 1).map wheelVal

/-- The module-level small-prime table `P10K = primes_list(10000)`. -/
def P10K : List Nat := _primes_list 10000

/-- Fold building the bit-set of a list of naturals. -/
def setBuild : List Nat → Nat → Nat
  | [], s => s
  | p :: ps, s => strictNat (s ||| 2 ^ p) (fun s2 => setBuild ps s2)

/-- The module-level set `P10Kset = set(P10K)`, as a bit set: membership of
`m` is `P10Kset.testBit m` (bridge lemma `P10Kset_testBit`). -/
def P10Kset : Nat := setBuild P10K 0

/-- Exact primality test: divide-and-conquer check that `n` has no divisor
`d` with `a ≤ d < a + len` (fuelled; fuel `len` suffices). -/
def noFactorIn (n : Nat) : Nat → Nat → Nat → Bool
  | _, _, 0 => true
  | a, len, f+1 =>
    if len = 0 then true
    else if len = 1 then !(n % a == 0)
    else noFactorIn n a (len / 2) f && noFactorIn n (a + len / 2) (len - len / 2) f

/-- Modelled from the spec: the accelerated exact primality primitive
(`gmpy2.is_prime` branch of prime.py, contract `is_prime(p)` true iff `p` is
prime).  Executable trial division up to `isqrt n`; bridged to `Nat.Prime`
by `is_prime_iff`. -/
def is_prime (n : Nat) : Bool := decide (2 ≤ n) && noFactorIn n 2 (isqrt n - 1) (isqrt n)

/-- The `while n % p == 0: n //= p; c += 1` extraction loop used by
`prime_divisor_decomposition` (and for `p = 2` by its parity phase),
returning `(c, remaining n)`; fuelled, `none` on exhaustion (the loop
diverges in Python when `n = 0`). -/
def extract (p : Nat) : Nat → Nat → Option (Nat × Nat)
  | _, 0 => none
  | n, f+1 =>
    if n % p = 0 then (extract p (n / p) f).map (fun r => (r.1 + 1, r.2))
    else some (0, n)

/-- The conditional append `if c: dlist.append(p); clist.append(c)` of
`prime_divisor_decomposition`, on the zipped pair list. -/
def trialAppend (acc : List (Nat × Nat)) (p c : Nat) : List (Nat × Nat) :=
  if c = 0 then acc else acc ++ [(p, c)]

/-- The trial-division loop `for p in iter(P10K)` of
`prime_divisor_decomposition`: accumulates `(prime, exponent)` pairs, returns
`Sum.inl` with the final pair list on the two early-`return` paths
(`n == 1`, `n in P10Kset`), or `Sum.inr (pairs, cofactor)` when the loop
exhausts the prime table. -/
def trialLoop (fuel : Nat) :
    List Nat → List (Nat × Nat) → Nat → Option (List (Nat × Nat) ⊕ (List (Nat × Nat) × Nat))
  | [], acc, n => some (Sum.inr (acc, n))
  | p :: ps, acc, n =>
    match extract p n fuel with
    | none => none
    | some (c, n₂) =>
      if n₂ = 1 then some (Sum.inl (trialAppend acc p c))
      else if P10Kset.testBit n₂ then some (Sum.inl (trialAppend acc p c ++ [(n₂, 1)]))
      else trialLoop fuel ps (trialAppend acc p c) n₂

/-- The iteration function `f = lambda x, c: x*x + c` of `_pollard_rho`,
reduced mod `n` as at its call sites. -/
def rhoF (x c n : Nat) : Nat := (x * x + c) % n

/-- The `while d == 1 and d != n` loop of `_pollard_rho`: tortoise `x`, hare
`y` (advanced twice), `d = gcd(y - x, n)`; fuelled. -/
def rhoLoop (n c : Nat) : Nat → Nat → Nat → Nat → Option Nat
  | _, _, _, 0 => none
  | x, y, d, f+1 =>
    if d = 1 ∧ d ≠ n then
      strictNat (rhoF x c n) fun x₂ =>
      strictNat (rhoF (rhoF y c n) c n) fun y₂ =>
      rhoLoop n c x₂ y₂ (Int.gcd ((y₂ : Int) - (x₂ : Int)) n) f
    else some d

/-- `_pollard_rho(n, rand)` from prime.py; `xc` is the pair of random draws
`(randrange(2, 1e6), randrange(2, 1e6))` used when `rand` is true, while
`rand = False` starts from `x, c = 1, 1`.  Returns `d` as the loop leaves it
(which may be `n` itself — there is no retry). -/
def _pollard_rho (n : Nat) (rand : Bool) (xc : Nat × Nat) (fuel : Nat) : Option Nat :=
  let s := if rand then xc else (1, 1)
  rhoLoop n s.2 s.1 s.1 1 fuel

/-- The `while 1` Pollard-rho phase of `prime_divisor_decomposition`:
either `n == 1` (stop), or `is_prime(n)` (append `(n, 1)`, stop), or obtain
`p = _pollard_rho(n, rand)` with the `k`-th seed pair, divide out its full
multiplicity and append `(p, c)`. -/
def rhoPhase (σ : Nat → Nat × Nat) (rand : Bool) :
    Nat → Nat → List (Nat × Nat) → Nat → Option (List (Nat × Nat))
  | _, 0, _, _ => none
  | k, f+1, acc, n =>
    if n = 1 then some acc
    else if is_prime n then some (acc ++ [(n, 1)])
    else
      match _pollard_rho n rand (σ k) (f+1) with
      | none => none
      | some p =>
        match extract p n (f+1) with
        | none => none
        | some (c, n₂) => rhoPhase σ rand (k+1) f (acc ++ [(p, c)]) n₂

/-- `prime_divisor_decomposition(n, rand)` from prime.py: strip factors of 2,
trial-divide by the primes of `P10K` (with the two early-return checks), then
run the Pollard-rho phase on the remaining cofactor.  `σ` supplies the random
seed pairs consumed by the rho calls; the list pairs up `dlist` and `clist`
in append order, as `list(zip(dlist, clist))` does. -/
def prime_divisor_decomposition (n : Nat) (rand : Bool) (σ : Nat → Nat × Nat) (fuel : Nat) :
    Option (List (Nat × Nat)) :=
  match extract 2 n fuel with
  | none => none
  | some (c, n₁) =>
    match trialLoop fuel P10K (trialAppend [] 2 c) n₁ with
    | none => none
    | some (Sum.inl res) => some res
    | some (Sum.inr (acc₂, m)) => rhoPhase σ rand 0 fuel acc₂ m

/-- One step of the mixed-radix odometer of `all_divisors`: `clist[k] += 1`
with carry (reset to 0 and move right); `none` when the carry falls off the
end (the `k >= d` exit). -/
def odoInc : List (Nat × Nat) → List Nat → Option (List Nat)
  | _, [] => none
  | [], _ :: _ => none
  | (_, e) :: pf, c :: cl =>
    if c + 1 ≤ e then some ((c + 1) :: cl)
    else (odoInc pf cl).map (fun t => 0 :: t)

/-- `cprod([primefactors[i][0]**clist[i] for i in range(d)])`. -/
def odoProd (pf : List (Nat × Nat)) (cl : List Nat) : Nat :=
  cprod (List.zipWith (fun pe c => pe.1 ^ c) pf cl)

/-- The `while 1` output loop of `all_divisors`: append the current product,
advance the odometer, and on carry-out return `sorted(output)` (Python's
ascending sort, modelled by insertion sort). -/
def odoRun (pf : List (Nat × Nat)) : List Nat → List Nat → Nat → Option (List Nat)
  | _, _, 0 => none
  | cl, out, f+1 =>
    let out₂ := out ++ [odoProd pf cl]
    match odoInc pf cl with
    | none => some (List.insertionSort (fun a b => a ≤ b) out₂)
    | some cl₂ => odoRun pf cl₂ out₂ f

/-- `all_divisors(n, rand)` from prime.py: `[1]` for `n = 1`, otherwise the
odometer over `prime_divisor_decomposition(n, rand)` starting from all-zero
exponent counters. -/
def all_divisors (n : Nat) (rand : Bool) (σ : Nat → Nat × Nat) (fuel : Nat) :
    Option (List Nat) :=
  if n = 1 then some [1]
  else
    match prime_divisor_decomposition n rand σ fuel with
    | none => none
    | some pf => odoRun pf (List.replicate pf.length 0) [] fuel

/-- `_mr_decompose(n)` from prime.py: write `n = 2^exponent * remainder`
with odd remainder (fuelled; fuel `n` suffices for `n ≥ 1`; the Python loop
diverges at `n = 0`, where the fuelled version just returns junk, a case
never reached by `_is_prime`). -/
def _mr_decompose : Nat → Nat → Nat × Nat
  | 0, n => (0, n)
  | f+1, n =>
    if n % 2 = 0 then ((_mr_decompose f (n / 2)).1 + 1, (_mr_decompose f (n / 2)).2)
    else (0, n)

/-- The squaring loop of `_mr_isWitness`: square `w` up to `e` times mod `p`,
returning `false` (not a witness) as soon as `p - 1` is reached. -/
def mrLoop (p : Nat) : Nat → Nat → Bool
  | _, 0 => true
  | w, e+1 => if w * w % p = p - 1 then false else mrLoop p (w * w % p) e

/-- `_mr_isWitness(possibleWitness, p, exponent, remainder)` from prime.py:
`pow(a, remainder, p)`, pass immediately on `1` or `p - 1`, else run the
squaring loop. -/
def _mr_isWitness (a p exponent remainder : Nat) : Bool :=
  if a ^ remainder % p = 1 ∨ a ^ remainder % p = p - 1 then false
  else mrLoop p (a ^ remainder % p) exponent

/-- `_is_prime(p, accuracy)` from prime.py (Miller-Rabin): `false` for
`p < 2`, `true` for `p ∈ {2, 3}`, otherwise `accuracy` rounds testing the
drawn candidate witnesses; `draws i` models the draw
`random.randint(2, p - 2)` of round `i`. -/
def _is_prime (p : Nat) (accuracy : Nat) (draws : Nat → Nat) : Bool :=
  if p < 2 then false
  else if p = 2 ∨ p = 3 then true
  else
    (List.range accuracy).all (fun i =>
      ! _mr_isWitness (draws i) p (_mr_decompose p (p - 1)).1 (_mr_decompose p (p - 1)).2)

/-- Modelled from the spec: `_mobius_list` builds its prime table with
`primes_list(isqrt(n)+1)`. -/
def mobiusPrimes (n : Nat) : List Nat := _primes_list (isqrt n + 1)

/-- `mlist[::p] *= -p` acting pointwise on the table-as-function. -/
def mulStride (m : Nat → Int) (p : Nat) : Nat → Int :=
  fun i => if i % p = 0 then m i * (-(p : Int)) else m i

/-- `mlist[::s] = 0` acting pointwise on the table-as-function. -/
def zeroStride (m : Nat → Int) (s : Nat) : Nat → Int :=
  fun i => if i % s = 0 then 0 else m i

/-- The sieving phase of `_mobius_list`: starting from the all-ones table,
for each `p` in the prime table do `mlist[::p] *= -p; mlist[::p*p] = 0`. -/
def mobiusSieve (n : Nat) : Nat → Int :=
  (mobiusPrimes n).foldl (fun m p => zeroStride (mulStride m p) (p * p)) (fun _ => 1)

/-- The normalization of one entry in the final loop of `_mobius_list`:
`if mlist[i]: (if abs(mlist[i]) < i: mlist[i] *= -1); mlist[i] = ±1`. -/
def mobiusNorm (x : Int) (i : Nat) : Int :=
  if x ≠ 0 then
    let y := if |x| < (i : Int) then -x else x
    if 0 < y then 1 else -1
  else x

/-- `_mobius_list(n)` from prime.py, as a table-valued function: entries
`1 ≤ i ≤ n` are normalized by the final loop, all others keep their sieved
value (index 0 is unspecified). -/
def _mobius_list (n : Nat) : Nat → Int :=
  fun i =>
    if 1 ≤ i ∧ i ≤ n then mobiusNorm (mobiusSieve n i) i else mobiusSieve n i

/-- The Möbius function exactly as the claim states it: `1` at `1`, `0` on
numbers with a squared prime factor, otherwise `(-1)^r` with `r` the number
of distinct prime factors. -/
def mu (k : Nat) : Int :=
  if k = 1 then 1
  else if Squarefree k then (-1) ^ k.primeFactors.card else 0

/-- Product of `p^e` over a factorization list, the round-trip value. -/
def prodPE (l : List (Nat × Nat)) : Nat := (l.map (fun pe => pe.1 ^ pe.2)).prod

-- ### Basic lemmas about the evaluation helpers

theorem strictNat_eq {α : Type} (n : Nat) (k : Nat → α) : strictNat n k = k n := by
  unfold strictNat
  split
  · rename_i h; rw [h]
  · rfl

theorem sqrtAux_eq (n : Nat) :
    ∀ f lo hi, lo * lo ≤ n → n < hi * hi → lo < hi → hi ≤ lo + f →
      sqrtAux n lo hi f = Nat.sqrt n := by
  intro f
  induction f with
  | zero => intro lo hi _ _ h1 h2; omega
  | succ f ih =>
    intro lo hi hlo hhi hlt hle
    rw [sqrtAux]
    split
    · rename_i h
      have h1 : lo ≤ Nat.sqrt n := Nat.le_sqrt.mpr hlo
      have h2 : Nat.sqrt n < hi := Nat.sqrt_lt.mpr hhi
      omega
    · rename_i h
      split
      · rename_i hm
        exact ih ((lo + hi) / 2) hi hm hhi (by omega) (by omega)
      · rename_i hm
        exact ih lo ((lo + hi) / 2) hlo (by omega) (by omega) (by omega)

theorem isqrt_eq (n : Nat) : isqrt n = Nat.sqrt n := by
  unfold isqrt
  exact sqrtAux_eq n (n + 2) 0 (n + 1) (by omega) (by nlinarith) (by omega) (by omega)

theorem noFactorIn_iff (n : Nat) :
    ∀ f a len, 1 ≤ a → len ≤ f →
      (noFactorIn n a len f = true ↔ ∀ d, a ≤ d → d < a + len → ¬ d ∣ n) := by
  intro f
  induction f with
  | zero =>
    intro a len ha hlen
    rw [noFactorIn]
    constructor
    · intro _ d hd1 hd2; omega
    · intro _; rfl
  | succ f ih =>
    intro a len ha hlen
    rw [noFactorIn]
    split
    · rename_i h0
      subst h0
      constructor
      · intro _ d hd1 hd2; omega
      · intro _; rfl
    · split
      · rename_i h0 h1
        subst h1
        rw [Bool.not_eq_true', beq_eq_false_iff_ne]
        constructor
        · intro hmod d hd1 hd2
          have hda : d = a := by omega
          subst hda
          intro hdvd
          exact hmod (Nat.dvd_iff_mod_eq_zero.mp hdvd)
        · intro h hmod
          exact h a le_rfl (by omega) (Nat.dvd_of_mod_eq_zero hmod)
      · rename_i h0 h1
        rw [Bool.and_eq_true, ih a (len / 2) ha (by omega),
          ih (a + len / 2) (len - len / 2) (by omega) (by omega)]
        constructor
        · rintro ⟨hl, hr⟩ d hd1 hd2
          by_cases hc : d < a + len / 2
          · exact hl d hd1 hc
          · exact hr d (by omega) (by omega)
        · intro h
          exact ⟨fun d hd1 hd2 => h d hd1 (by omega),
                 fun d hd1 hd2 => h d (by omega) (by omega)⟩

theorem is_prime_iff (n : Nat) : is_prime n = true ↔ n.Prime := by
  unfold is_prime
  rw [Bool.and_eq_true, decide_eq_true_eq, isqrt_eq,
    noFactorIn_iff n (Nat.sqrt n) 2 (Nat.sqrt n - 1) (by omega) (by omega)]
  rw [Nat.prime_def_le_sqrt]
  constructor
  · rintro ⟨h2, h⟩
    exact ⟨h2, fun m hm1 hm2 => h m hm1 (by omega)⟩
  · rintro ⟨h2, h⟩
    refine ⟨h2, fun d hd1 hd2 => h d hd1 ?_⟩
    have h1 : 1 ≤ Nat.sqrt n := Nat.le_sqrt.mpr (by omega)
    omega

-- ### The extraction loop

theorem extract_spec (p : Nat) :
    ∀ f n c m, extract p n f = some (c, m) → p ^ c * m = n ∧ ¬ p ∣ m := by
  intro f
  induction f with
  | zero => intro n c m h; simp [extract] at h
  | succ f ih =>
    intro n c m h
    rw [extract] at h
    split at h
    · rename_i hmod
      cases he : extract p (n / p) f with
      | none => rw [he] at h; simp at h
      | some r =>
        obtain ⟨c', m'⟩ := r
        rw [he] at h
        simp only [Option.map_some', Option.some.injEq, Prod.mk.injEq] at h
        obtain ⟨hc, hm⟩ := h
        obtain ⟨h1, h2⟩ := ih (n / p) c' m' he
        subst hc; subst hm
        refine ⟨?_, h2⟩
        have hdvd : p ∣ n := Nat.dvd_of_mod_eq_zero hmod
        calc p ^ (c' + 1) * m' = p * (p ^ c' * m') := by ring
          _ = p * (n / p) := by rw [h1]
          _ = n := Nat.mul_div_cancel' hdvd
    · rename_i hmod
      simp only [Option.some.injEq, Prod.mk.injEq] at h
      obtain ⟨hc, hm⟩ := h
      subst hc; subst hm
      refine ⟨by ring, fun hdvd => hmod ?_⟩
      exact Nat.dvd_iff_mod_eq_zero.mp hdvd

theorem extract_pos_exp (p : Nat) (f n c m : Nat) (h : extract p n f = some (c, m))
    (hdvd : p ∣ n) : 1 ≤ c := by
  obtain ⟨h1, h2⟩ := extract_spec p f n c m h
  rcases Nat.eq_zero_or_pos c with hc | hc
  · subst hc
    simp only [pow_zero, one_mul] at h1
    exact absurd (h1 ▸ hdvd) h2
  · exact hc

theorem extract_none_zero (f : Nat) : extract 2 0 f = none := by
  induction f with
  | zero => rfl
  | succ f ih => rw [extract]; simp [ih]

-- ### Round-trip product invariants

theorem prodPE_nil : prodPE [] = 1 := rfl

theorem prodPE_append_one (l : List (Nat × Nat)) (p c : Nat) :
    prodPE (l ++ [(p, c)]) = prodPE l * p ^ c := by
  simp [prodPE]

theorem prodPE_trialAppend (l : List (Nat × Nat)) (p c : Nat) :
    prodPE (trialAppend l p c) = prodPE l * p ^ c := by
  unfold trialAppend
  split
  · rename_i h; subst h; simp
  · exact prodPE_append_one l p c

/-- Product carried by a trial-loop result. -/
def resProd : List (Nat × Nat) ⊕ (List (Nat × Nat) × Nat) → Nat
  | Sum.inl out => prodPE out
  | Sum.inr (acc, m) => prodPE acc * m

theorem trialLoop_prod (fuel : Nat) :
    ∀ ps acc n r, trialLoop fuel ps acc n = some r → resProd r = prodPE acc * n := by
  intro ps
  induction ps with
  | nil =>
    intro acc n r h
    rw [trialLoop] at h
    simp only [Option.some.injEq] at h
    subst h
    rfl
  | cons p ps ih =>
    intro acc n r h
    rw [trialLoop] at h
    cases he : extract p n fuel with
    | none => rw [he] at h; simp at h
    | some cn =>
      obtain ⟨c, n₂⟩ := cn
      rw [he] at h
      obtain ⟨hprod, -⟩ := extract_spec p fuel n c n₂ he
      simp only at h
      split at h
      · rename_i h1
        simp only [Option.some.injEq] at h
        subst h
        simp only [resProd, prodPE_trialAppend]
        rw [← hprod, h1]
        ring
      · split at h
        · rename_i h1 h2
          simp only [Option.some.injEq] at h
          subst h
          simp only [resProd, prodPE_append_one, prodPE_trialAppend]
          rw [← hprod]
          ring
        · rename_i h1 h2
          rw [ih (trialAppend acc p c) n₂ r h, prodPE_trialAppend, ← hprod]
          ring

theorem rhoLoop_spec (n c : Nat) :
    ∀ f x y d e, d ∣ n → rhoLoop n c x y d f = some e → e ∣ n ∧ (e = 1 → n = 1) := by
  intro f
  induction f with
  | zero => intro x y d e _ h; simp [rhoLoop] at h
  | succ f ih =>
    intro x y d e hd h
    rw [rhoLoop] at h
    split at h
    · rename_i hcond
      simp only [strictNat_eq] at h
      refine ih _ _ _ e ?_ h
      exact Int.natCast_dvd_natCast.mp Int.gcd_dvd_right
    · rename_i hcond
      simp only [Option.some.injEq] at h
      subst h
      refine ⟨hd, fun he => ?_⟩
      subst he
      by_contra hn
      exact hcond ⟨rfl, fun h1 => hn h1.symm⟩

theorem pollard_spec (n : Nat) (rand : Bool) (xc : Nat × Nat) (fuel : Nat) (e : Nat)
    (h : _pollard_rho n rand xc fuel = some e) : e ∣ n ∧ (e = 1 → n = 1) := by
  unfold _pollard_rho at h
  exact rhoLoop_spec n _ fuel _ _ 1 e (one_dvd n) h

theorem rhoPhase_prod (σ : Nat → Nat × Nat) (rand : Bool) :
    ∀ f k acc n l, rhoPhase σ rand k f acc n = some l → prodPE l = prodPE acc * n := by
  intro f
  induction f with
  | zero => intro k acc n l h; simp [rhoPhase] at h
  | succ f ih =>
    intro k acc n l h
    rw [rhoPhase] at h
    split at h
    · rename_i h1
      simp only [Option.some.injEq] at h
      subst h; subst h1
      simp
    · split at h
      · rename_i h1 h2
        simp only [Option.some.injEq] at h
        subst h
        rw [prodPE_append_one]
        ring
      · rename_i h1 h2
        cases hp : _pollard_rho n rand (σ k) (f + 1) with
        | none => rw [hp] at h; simp at h
        | some p =>
          rw [hp] at h
          simp only at h
          cases he : extract p n (f + 1) with
          | none => rw [he] at h; simp at h
          | some cn =>
            obtain ⟨c, n₂⟩ := cn
            rw [he] at h
            simp only at h
            obtain ⟨hprod, -⟩ := extract_spec p (f + 1) n c n₂ he
            rw [ih _ _ _ _ h, prodPE_append_one, ← hprod]
            ring

theorem decomp_prod (n : Nat) (rand : Bool) (σ : Nat → Nat × Nat) (fuel : Nat)
    (l : List (Nat × Nat)) (h : prime_divisor_decomposition n rand σ fuel = some l) :
    prodPE l = n := by
  unfold prime_divisor_decomposition at h
  cases he : extract 2 n fuel with
  | none => rw [he] at h; simp at h
  | some cn =>
    obtain ⟨c, n₁⟩ := cn
    rw [he] at h
    simp only at h
    obtain ⟨hprod, -⟩ := extract_spec 2 fuel n c n₁ he
    cases ht : trialLoop fuel P10K (trialAppend [] 2 c) n₁ with
    | none => rw [ht] at h; simp at h
    | some r =>
      rw [ht] at h
      have hres := trialLoop_prod fuel P10K (trialAppend [] 2 c) n₁ r ht
      rw [prodPE_trialAppend, prodPE_nil, one_mul] at hres
      cases r with
      | inl res =>
        simp only [Option.some.injEq] at h
        rw [← h]
        show resProd (Sum.inl res) = n
        rw [hres, hprod]
      | inr am =>
        obtain ⟨acc₂, m⟩ := am
        simp only at h
        rw [rhoPhase_prod σ rand fuel 0 acc₂ m l h]
        have : prodPE acc₂ * m = resProd (Sum.inr (acc₂, m)) := rfl
        rw [this, hres, hprod]

theorem decomp_one (rand : Bool) (σ : Nat → Nat × Nat) :
    ∀ fuel l, prime_divisor_decomposition 1 rand σ fuel = some l → l = [] := by
  intro fuel l h
  match fuel with
  | 0 => simp [prime_divisor_decomposition, extract] at h
  | f + 1 =>
    have he : extract 2 1 (f + 1) = some (0, 1) := by rw [extract]; norm_num
    unfold prime_divisor_decomposition at h
    rw [he] at h
    simp only at h
    have hP : P10K = 2 :: 3 ::
        (((List.range (wheelSize 10000)).filter
          (fun i => (sieveMask 10000).testBit i)).drop 1).map wheelVal := rfl
    rw [hP] at h
    rw [trialLoop.eq_def] at h
    simp [he, trialAppend] at h
    exact h

-- ### Claim C1

/-- C1: for every n ≥ 1, whenever `prime_divisor_decomposition(n, rand)`
returns (the fuelled embedding yields `some l`), the product of factor ^
exponent over the returned pairs is exactly n; and n = 1 yields the empty
sequence. -/
theorem C1_roundtrip_product (n : Nat) (rand : Bool) (σ : Nat → Nat × Nat) (fuel : Nat)
    (l : List (Nat × Nat)) (h1 : 1 ≤ n)
    (h2 : prime_divisor_decomposition n rand σ fuel = some l) :
    prodPE l = n ∧ (n = 1 → l = []) := by
  refine ⟨decomp_prod n rand σ fuel l h2, fun hn => ?_⟩
  subst hn
  exact decomp_one rand σ fuel l h2

theorem C1_roundtrip_product_witness :
    prodPE [(2, 2), (3, 1)] = 12 ∧ (12 = 1 → [(2, 2), (3, 1)] = ([] : List (Nat × Nat))) :=
  C1_roundtrip_product 12 false (fun _ => (1, 1)) 100 [(2, 2), (3, 1)] (by decide) (by decide)

-- ### Claim C6

/-- C6: counter-evidence for the claim that `_pollard_rho` always returns a
non-trivial factor and retries on d == n: at the composite n = 4 with the
deterministic seed path (rand=False, x = c = 1) the loop's gcd reaches
d = n = 4 and the function returns n itself — there is no retry loop in the
code, contradicting its own docstring "return a non-trivial(not one or n)
factor of n". -/
theorem C6_pollard_rho_returns_n :
    _pollard_rho 4 false (1, 1) 10 = some 4 ∧ ¬ Nat.Prime 4 := by
  constructor
  · decide
  · decide

-- ### Claim C8

/-- C8 (amended): n = 0 is not rejected with any error condition; the
factor-of-2 stripping loop diverges, so for every fuel bound both
`prime_divisor_decomposition` and `all_divisors` fail to produce any result
(`none`), and no validation of n < 1 exists anywhere in the code. -/
theorem C8_zero_diverges (fuel : Nat) (rand : Bool) (σ : Nat → Nat × Nat) :
    prime_divisor_decomposition 0 rand σ fuel = none ∧ all_divisors 0 rand σ fuel = none := by
  have hd : prime_divisor_decomposition 0 rand σ fuel = none := by
    unfold prime_divisor_decomposition
    rw [extract_none_zero]
  refine ⟨hd, ?_⟩
  unfold all_divisors
  rw [if_neg (by omega), hd]

/-- C8 (counterexample): a concrete call with n = 0 produces no result at
all (the stripping loop just spins), rather than failing with an
InvalidArgument condition and returning control to the caller. -/
theorem C8_zero_not_rejected :
    prime_divisor_decomposition 0 false (fun _ => (1, 1)) 64 = none ∧
      all_divisors 0 false (fun _ => (1, 1)) 64 = none := by
  constructor
  · decide
  · decide

-- ### Claim C10

/-- C10: for every bound n with 0 ≤ n ≤ 5 (below the documented minimum 6),
`_primes_list(n)` raises no error and returns exactly [2, 3] — so the result
can contain primes ≥ n; the invalid bound is neither clamped nor rejected. -/
theorem C10_small_bound_returns_2_3 (n : Nat) (h : n ≤ 5) : _primes_list n = [2, 3] := by
  interval_cases n
  · decide
  · decide
  · decide
  · decide
  · decide
  · decide

theorem C10_small_bound_returns_2_3_witness : 4 ≤ 5 ∧ _primes_list 4 = [2, 3] :=
  ⟨by decide, C10_small_bound_returns_2_3 4 (by decide)⟩

-- ### Claim C4: Miller-Rabin

theorem mr_decompose_spec :
    ∀ f n, 1 ≤ n → n ≤ f →
      2 ^ (_mr_decompose f n).1 * (_mr_decompose f n).2 = n ∧
        (_mr_decompose f n).2 % 2 = 1 := by
  intro f
  induction f with
  | zero => intro n h1 h2; omega
  | succ f ih =>
    intro n h1 h2
    rw [_mr_decompose]
    split
    · rename_i he
      obtain ⟨ha, hb⟩ := ih (n / 2) (by omega) (by omega)
      refine ⟨?_, hb⟩
      simp only
      rw [pow_succ]
      calc 2 ^ (_mr_decompose f (n / 2)).1 * 2 * (_mr_decompose f (n / 2)).2
          = 2 * (2 ^ (_mr_decompose f (n / 2)).1 * (_mr_decompose f (n / 2)).2) := by ring
        _ = 2 * (n / 2) := by rw [ha]
        _ = n := by omega
    · rename_i he
      refine ⟨by simp, by omega⟩

/-- The squaring step of the `_mr_isWitness` loop. -/
def mrSq (p w : Nat) : Nat := w * w % p

theorem mrLoop_eq_false (p : Nat) :
    ∀ e w i, 1 ≤ i → i ≤ e → (mrSq p)^[i] w = p - 1 → mrLoop p w e = false := by
  intro e
  induction e with
  | zero => intro w i h1 h2 _; omega
  | succ e ih =>
    intro w i h1 h2 hit
    rw [mrLoop]
    split
    · rfl
    · rename_i hne
      rcases Nat.lt_or_ge i 2 with hi | hi
      · have hi1 : i = 1 := by omega
        subst hi1
        rw [Function.iterate_one] at hit
        exact absurd hit hne
      · refine ih (w * w % p) (i - 1) (by omega) (by omega) ?_
        have hstep : (mrSq p)^[i] w = (mrSq p)^[i - 1] (mrSq p w) := by
          conv_lhs => rw [show i = (i - 1) + 1 by omega]
          rw [Function.iterate_succ_apply]
        rw [hstep] at hit
        exact hit

theorem mr_iter_cast (p : Nat) (hp0 : 0 < p) (w : Nat) (hw : w < p) :
    ∀ i, (mrSq p)^[i] w < p ∧
      (((mrSq p)^[i] w : Nat) : ZMod p) = ((w : Nat) : ZMod p) ^ (2 ^ i) := by
  intro i
  induction i with
  | zero => simpa using hw
  | succ i ih =>
    obtain ⟨h1, h2⟩ := ih
    constructor
    · rw [Function.iterate_succ_apply']
      exact Nat.mod_lt _ hp0
    · rw [Function.iterate_succ_apply']
      show ((((mrSq p)^[i] w * ((mrSq p)^[i] w)) % p : Nat) : ZMod p)
        = ((w : Nat) : ZMod p) ^ 2 ^ (i + 1)
      rw [ZMod.natCast_mod, Nat.cast_mul, h2, ← pow_add]
      congr 1
      rw [pow_succ]
      omega

theorem mr_isWitness_false (p : Nat) (hp : p.Prime) (hp5 : 5 ≤ p) (a : Nat)
    (ha2 : 2 ≤ a) (hap : a ≤ p - 2) (e d : Nat) (hed : 2 ^ e * d = p - 1) :
    _mr_isWitness a p e d = false := by
  haveI : Fact p.Prime := ⟨hp⟩
  have hp0 : 0 < p := by omega
  have hane : ((a : Nat) : ZMod p) ≠ 0 := by
    rw [Ne, ZMod.natCast_zmod_eq_zero_iff_dvd]
    intro hdvd
    have := Nat.le_of_dvd (by omega) hdvd
    omega
  have hfer : ((a : Nat) : ZMod p) ^ (2 ^ e * d) = 1 := by
    rw [hed]; exact ZMod.pow_card_sub_one_eq_one hane
  have hex : ∃ j, ((a : Nat) : ZMod p) ^ (2 ^ j * d) = 1 := ⟨e, hfer⟩
  have hjspec : ((a : Nat) : ZMod p) ^ (2 ^ (Nat.find hex) * d) = 1 := Nat.find_spec hex
  have hjle : Nat.find hex ≤ e := Nat.find_min' hex hfer
  have hw0lt : a ^ d % p < p := Nat.mod_lt _ hp0
  have hw0cast : ((a ^ d % p : Nat) : ZMod p) = ((a : Nat) : ZMod p) ^ d := by
    rw [ZMod.natCast_mod, Nat.cast_pow]
  have hinj : ∀ x y : Nat, x < p → y < p →
      ((x : Nat) : ZMod p) = ((y : Nat) : ZMod p) → x = y := by
    intro x y hx hy hxy
    have hval := congrArg ZMod.val hxy
    rwa [ZMod.val_cast_of_lt hx, ZMod.val_cast_of_lt hy] at hval
  have hm1 : ((p - 1 : Nat) : ZMod p) = -1 := by
    rw [Nat.cast_sub (by omega : 1 ≤ p), ZMod.natCast_self, Nat.cast_one]
    ring
  unfold _mr_isWitness
  split
  · rfl
  · rename_i hne
    push_neg at hne
    obtain ⟨hne1, hnep⟩ := hne
    have hj1 : 1 ≤ Nat.find hex := by
      by_contra hj0
      push_neg at hj0
      have hj00 : Nat.find hex = 0 := by omega
      rw [hj00] at hjspec
      simp only [pow_zero, one_mul] at hjspec
      apply hne1
      apply hinj _ _ hw0lt (by omega)
      rw [hw0cast, hjspec, Nat.cast_one]
    have hβsq : (((a : Nat) : ZMod p) ^ (2 ^ (Nat.find hex - 1) * d)) *
        (((a : Nat) : ZMod p) ^ (2 ^ (Nat.find hex - 1) * d)) = 1 := by
      rw [← pow_add]
      have h2j : 2 ^ (Nat.find hex) = 2 ^ (Nat.find hex - 1) * 2 := by
        conv_lhs => rw [show Nat.find hex = (Nat.find hex - 1) + 1 by omega]
        rw [pow_succ]
      rw [show 2 ^ (Nat.find hex - 1) * d + 2 ^ (Nat.find hex - 1) * d
          = 2 ^ (Nat.find hex) * d by rw [h2j]; ring]
      exact hjspec
    have hβne1 : ((a : Nat) : ZMod p) ^ (2 ^ (Nat.find hex - 1) * d) ≠ 1 :=
      Nat.find_min hex (by omega)
    have hβm1 : ((a : Nat) : ZMod p) ^ (2 ^ (Nat.find hex - 1) * d) = -1 :=
      (mul_self_eq_one_iff.mp hβsq).resolve_left hβne1
    rcases Nat.lt_or_ge (Nat.find hex) 2 with hjc | hjc
    · exfalso
      have hj11 : Nat.find hex - 1 = 0 := by omega
      rw [hj11] at hβm1
      simp only [pow_zero, one_mul] at hβm1
      apply hnep
      apply hinj _ _ hw0lt (by omega)
      rw [hw0cast, hβm1, hm1]
    · apply mrLoop_eq_false p e (a ^ d % p) (Nat.find hex - 1) (by omega) (by omega)
      apply hinj _ _ (mr_iter_cast p hp0 _ hw0lt (Nat.find hex - 1)).1 (by omega)
      rw [(mr_iter_cast p hp0 _ hw0lt (Nat.find hex - 1)).2, hw0cast, hm1, ← hβm1,
        ← pow_mul]
      congr 1
      ring

/-- C4: for every prime p ≥ 2 and every sequence of witness draws,
`_is_prime(p, accuracy)` returns true — no false negatives; and for every
p < 2 it returns false.  The draws model `random.randint(2, p - 2)`, so
each lies in [2, p-2]; the code only draws when p ≥ 5 (for p ∈ {2, 3} it
answers true before drawing), so the range constraint is conditional on
5 ≤ p and the theorem covers p = 2 and p = 3 with unconstrained draws. -/
theorem C4_mr_no_false_negatives (p accuracy : Nat) (draws : Nat → Nat) :
    (p.Prime → (∀ i, 5 ≤ p → 2 ≤ draws i ∧ draws i ≤ p - 2) →
      _is_prime p accuracy draws = true) ∧
    (p < 2 → _is_prime p accuracy draws = false) := by
  constructor
  · intro hp hdr
    have hp2 : 2 ≤ p := hp.two_le
    unfold _is_prime
    rw [if_neg (by omega : ¬ p < 2)]
    by_cases h23 : p = 2 ∨ p = 3
    · rw [if_pos h23]
    · rw [if_neg h23]
      rw [List.all_eq_true]
      intro i hi
      simp only [Bool.not_eq_eq_eq_not, Bool.not_true]
      have hp4 : p ≠ 4 := by
        intro h4
        rw [h4] at hp
        norm_num at hp
      have hp5 : 5 ≤ p := by
        push_neg at h23
        omega
      obtain ⟨he, -⟩ := mr_decompose_spec p (p - 1) (by omega) (by omega)
      exact mr_isWitness_false p hp hp5 (draws i) (hdr i hp5).1 (hdr i hp5).2 _ _ he
  · intro h
    unfold _is_prime
    rw [if_pos h]

theorem C4_mr_no_false_negatives_witness :
    (_is_prime 97 3 (fun _ => 2) = true ∧ _is_prime 3 3 (fun _ => 0) = true) ∧
      _is_prime 1 3 (fun _ => 2) = false :=
  ⟨⟨(C4_mr_no_false_negatives 97 3 (fun _ => 2)).1 (by norm_num)
        (fun i h5 => ⟨by omega, by omega⟩),
    (C4_mr_no_false_negatives 3 3 (fun _ => 0)).1 (by norm_num)
        (fun i h5 => ⟨by omega, by omega⟩)⟩,
   (C4_mr_no_false_negatives 1 3 (fun _ => 2)).2 (by omega)⟩

-- ### Bit-level behaviour of the sieve mask operations

theorem testBit_sub_two_pow {m s : Nat} (hs : m.testBit s = true) (j : Nat) :
    (m - 2 ^ s).testBit j = if j = s then false else m.testBit j := by
  have h2s : 0 < 2 ^ s := Nat.two_pow_pos s
  have hq0 : m / 2 ^ s % 2 = 1 := by
    rwa [Nat.testBit_to_div_mod, decide_eq_true_eq] at hs
  obtain ⟨q, r, hqr, hq, hr, hqm⟩ :
      ∃ q r, 2 ^ s * q + r = m ∧ q % 2 = 1 ∧ r < 2 ^ s ∧ q = m / 2 ^ s :=
    ⟨m / 2 ^ s, m % 2 ^ s, Nat.div_add_mod m (2 ^ s), hq0, Nat.mod_lt _ h2s, rfl⟩
  have hq1 : 1 ≤ q := by omega
  have hmulsub : 2 ^ s * q = 2 ^ s * (q - 1) + 2 ^ s := by
    conv_lhs => rw [show q = (q - 1) + 1 by omega]
    ring
  have hsub : m - 2 ^ s = 2 ^ s * (q - 1) + r := by omega
  by_cases hj : j = s
  · subst hj
    rw [if_pos rfl, Nat.testBit_to_div_mod, decide_eq_false_iff_not, hsub,
      Nat.mul_add_div h2s, Nat.div_eq_of_lt hr]
    rw [hqm] at hq
    omega
  · rw [if_neg hj]
    rcases Nat.lt_or_ge j s with hjs | hjs
    · have h2j : 0 < 2 ^ j := Nat.two_pow_pos j
      have hsj : (2 : Nat) ^ s = 2 ^ j * 2 ^ (s - j) := by
        rw [← pow_add]; congr 1; omega
      have hev : (2 : Nat) ^ (s - j) = 2 * 2 ^ (s - j - 1) := by
        conv_lhs => rw [show s - j = (s - j - 1) + 1 by omega]
        ring
      have e1 : ∀ X R : Nat, (2 * X + R) % 2 = R % 2 := by intro X R; omega
      rw [Nat.testBit_to_div_mod, Nat.testBit_to_div_mod, decide_eq_decide]
      have key : (m - 2 ^ s) / 2 ^ j % 2 = m / 2 ^ j % 2 := by
        rw [hsub]
        conv_rhs => rw [← hqr]
        rw [hsj, Nat.mul_assoc, Nat.mul_assoc, Nat.mul_add_div h2j, Nat.mul_add_div h2j]
        rw [show 2 ^ (s - j) * (q - 1) = 2 * (2 ^ (s - j - 1) * (q - 1)) by rw [hev]; ring]
        rw [show 2 ^ (s - j) * q = 2 * (2 ^ (s - j - 1) * q) by rw [hev]; ring]
        rw [e1, e1]
      rw [key]
    · have hjs1 : s + 1 ≤ j := by omega
      have h2s1 : 0 < 2 ^ (s + 1) := Nat.two_pow_pos (s + 1)
      have hA : 2 ^ (s + 1) * (m / 2 ^ (s + 1)) + m % 2 ^ (s + 1) = m :=
        Nat.div_add_mod m (2 ^ (s + 1))
      have hB : m % 2 ^ (s + 1) < 2 ^ (s + 1) := Nat.mod_lt _ h2s1
      have hBs : 2 ^ s ≤ m % 2 ^ (s + 1) := by
        have hps : (2 : Nat) ^ (s + 1) = 2 ^ s * 2 := by rw [pow_succ]
        have h1 : m % 2 ^ (s + 1) / 2 ^ s = 1 := by
          rw [hps, Nat.mod_mul_right_div_self]
          exact hq0
        have h2 := (Nat.le_div_iff_mul_le h2s).mp (le_of_eq h1.symm)
        omega
      have hsub2 : m - 2 ^ s = 2 ^ (s + 1) * (m / 2 ^ (s + 1)) + (m % 2 ^ (s + 1) - 2 ^ s) := by
        have hle : 2 ^ s ≤ 2 ^ (s + 1) := Nat.pow_le_pow_right (by omega) (by omega)
        omega
      have gen : ∀ C, C < 2 ^ (s + 1) →
          (2 ^ (s + 1) * (m / 2 ^ (s + 1)) + C) / 2 ^ j
            = m / 2 ^ (s + 1) / 2 ^ (j - (s + 1)) := by
        intro C hC
        have hj2 : (2 : Nat) ^ j = 2 ^ (s + 1) * 2 ^ (j - (s + 1)) := by
          rw [← pow_add]; congr 1; omega
        rw [hj2, ← Nat.div_div_eq_div_mul, Nat.mul_add_div h2s1, Nat.div_eq_of_lt hC,
          Nat.add_zero]
      rw [Nat.testBit_to_div_mod, Nat.testBit_to_div_mod, decide_eq_decide, hsub2,
        gen _ (by omega)]
      conv_rhs => rw [← hA]
      rw [gen _ hB]

/-- Membership in the arithmetic progression `start, start+step, ...` of
length `t`. -/
def InProg (start step t j : Nat) : Prop := ∃ u, u < t ∧ j = start + u * step

theorem inProg_succ_iff (start step t j : Nat) :
    InProg start step (t + 1) j ↔ j = start ∨ InProg (start + step) step t j := by
  constructor
  · rintro ⟨u, hu, hju⟩
    rcases Nat.eq_zero_or_pos u with h0 | h0
    · left; subst h0; simpa using hju
    · right
      refine ⟨u - 1, by omega, ?_⟩
      have hmul : u * step = step + (u - 1) * step := by
        conv_lhs => rw [show u = 1 + (u - 1) by omega]
        ring
      omega
  · rintro (h | ⟨u, hu, hju⟩)
    · exact ⟨0, by omega, by simpa using h⟩
    · refine ⟨u + 1, by omega, ?_⟩
      have hmul : (u + 1) * step = step + u * step := by ring
      omega

theorem clearEvery_testBit (step : Nat) :
    ∀ t start m j,
      ((clearEvery start step t m).testBit j = true ↔
        m.testBit j = true ∧ ¬ InProg start step t j) := by
  intro t
  induction t with
  | zero =>
    intro start m j
    rw [clearEvery]
    constructor
    · intro h
      refine ⟨h, ?_⟩
      rintro ⟨u, hu, -⟩
      omega
    · exact fun h => h.1
  | succ t ih =>
    intro start m j
    rw [clearEvery, strictNat_eq, ih (start + step), inProg_succ_iff]
    by_cases hbit : m.testBit start = true
    · rw [if_pos hbit, testBit_sub_two_pow hbit]
      by_cases hjs : j = start
      · subst hjs
        rw [if_pos rfl]
        simp
      · rw [if_neg hjs]
        constructor
        · rintro ⟨h1, h2⟩
          exact ⟨h1, fun h => h.elim (fun he => hjs he) h2⟩
        · rintro ⟨h1, h2⟩
          exact ⟨h1, fun h => h2 (Or.inr h)⟩
    · rw [if_neg hbit]
      constructor
      · rintro ⟨h1, h2⟩
        refine ⟨h1, ?_⟩
        rintro (he | hp)
        · exact hbit (he ▸ h1)
        · exact h2 hp
      · rintro ⟨h1, h2⟩
        exact ⟨h1, fun hp => h2 (Or.inr hp)⟩

theorem markCount_covers (size start step : Nat) (hstep : 0 < step) :
    size ≤ start + step * markCount size start step := by
  unfold markCount
  have hd := Nat.div_add_mod (size - start + step - 1) step
  have hm := Nat.mod_lt (size - start + step - 1) hstep
  omega

theorem sliceClear_testBit (size m start step j : Nat) (hstep : 0 < step) (hj : j < size) :
    ((sliceClear size m start step).testBit j = true ↔
      m.testBit j = true ∧ ¬ ∃ u, j = start + u * step) := by
  unfold sliceClear
  rw [clearEvery_testBit]
  constructor
  · rintro ⟨h1, h2⟩
    refine ⟨h1, ?_⟩
    rintro ⟨u, hju⟩
    apply h2
    refine ⟨u, ?_, hju⟩
    by_contra hge
    push_neg at hge
    have h3 : step * markCount size start step ≤ step * u := Nat.mul_le_mul_left _ hge
    have h4 : step * u = u * step := Nat.mul_comm _ _
    have h5 := markCount_covers size start step hstep
    omega
  · rintro ⟨h1, h2⟩
    exact ⟨h1, fun hp => h2 ⟨hp.choose, hp.choose_spec.2⟩⟩

-- ### Wheel value arithmetic

theorem lor_one (m : Nat) : m ||| 1 = if m % 2 = 0 then m + 1 else m := by
  apply Nat.eq_of_testBit_eq
  intro i
  rw [Nat.testBit_lor]
  rcases Nat.eq_zero_or_pos i with hi | hi
  · subst hi
    rw [show Nat.testBit 1 0 = true from by decide, Bool.or_true]
    split
    · rename_i he
      symm
      rw [Nat.testBit_to_div_mod]
      simp only [pow_zero, Nat.div_one]
      rw [decide_eq_true_eq]
      omega
    · rename_i he
      symm
      rw [Nat.testBit_to_div_mod]
      simp only [pow_zero, Nat.div_one]
      rw [decide_eq_true_eq]
      omega
  · have h1 : Nat.testBit 1 i = false := by
      rw [show (1 : Nat) = 2 ^ 0 by norm_num, Nat.testBit_two_pow]
      rw [decide_eq_false_iff_not]
      omega
    rw [h1, Bool.or_false]
    split
    · rename_i he
      rw [Nat.testBit_to_div_mod, Nat.testBit_to_div_mod, decide_eq_decide]
      have key : m / 2 ^ i = (m + 1) / 2 ^ i := by
        have h2 : (2 : Nat) ^ i = 2 * 2 ^ (i - 1) := by
          conv_lhs => rw [show i = 1 + (i - 1) by omega]
          rw [pow_add]
          ring
        rw [h2, ← Nat.div_div_eq_div_mul, ← Nat.div_div_eq_div_mul]
        congr 1
        omega
      rw [key]
    · rfl

theorem wheelVal_eq (i : Nat) : wheelVal i = 3 * i + 1 + i % 2 := by
  unfold wheelVal
  rw [lor_one]
  split
  · rename_i h; omega
  · rename_i h; omega

theorem prog_index_iff (k B u j : Nat)
    (hB : (k * B) % 6 = 1 ∨ (k * B) % 6 = 5) :
    j = k * B / 3 + u * (2 * k) ↔ wheelVal j = k * B + 6 * (u * k) := by
  rw [wheelVal_eq]
  have e1 : u * (2 * k) = 2 * (u * k) := by ring
  omega

theorem marks_iff (i j : Nat) (hi : 1 ≤ i) :
    ((∃ u, j = wheelVal i * wheelVal i / 3 + u * (2 * wheelVal i)) ∨
     (∃ u, j = wheelVal i * (wheelVal i - 2 * (i &&& 1) + 4) / 3 + u * (2 * wheelVal i)))
    ↔ ∃ q, q % 2 = 1 ∧ q % 3 ≠ 0 ∧ wheelVal i ≤ q ∧ wheelVal j = wheelVal i * q := by
  rw [Nat.and_one_is_mod]
  obtain ⟨k, hkeq, hk5, hk1, hk5m⟩ :
      ∃ k, wheelVal i = k ∧ 5 ≤ k ∧ (i % 2 = 0 → k % 6 = 1) ∧ (i % 2 = 1 → k % 6 = 5) :=
    ⟨wheelVal i, rfl, by rw [wheelVal_eq]; omega, fun h => by rw [wheelVal_eq]; omega,
      fun h => by rw [wheelVal_eq]; omega⟩
  rw [hkeq]
  rcases Nat.mod_two_eq_zero_or_one i with hi2 | hi2
  · -- i even: k % 6 = 1, second slice starts at k*(k+4)/3
    have hk6 : k % 6 = 1 := hk1 hi2
    rw [hi2]
    rw [show k - 2 * 0 + 4 = k + 4 by omega]
    have hm1 : (k * k) % 6 = 1 := by
      rw [Nat.mul_mod, hk6]
    have hm2 : (k * (k + 4)) % 6 = 5 := by
      rw [Nat.mul_mod, Nat.add_mod, hk6]
    constructor
    · rintro (⟨u, hu⟩ | ⟨u, hu⟩)
      · refine ⟨k + 6 * u, by omega, by omega, by omega, ?_⟩
        have h1 := (prog_index_iff k k u j (Or.inl hm1)).mp hu
        have h2 : k * (k + 6 * u) = k * k + 6 * (u * k) := by ring
        omega
      · refine ⟨k + 4 + 6 * u, by omega, by omega, by omega, ?_⟩
        have h1 := (prog_index_iff k (k + 4) u j (Or.inr hm2)).mp hu
        have h2 : k * (k + 4 + 6 * u) = k * (k + 4) + 6 * (u * k) := by ring
        omega
    · rintro ⟨q, hq2, hq3, hqk, hqv⟩
      have hq6 : q % 6 = 1 ∨ q % 6 = 5 := by omega
      rcases hq6 with hq6 | hq6
      · left
        refine ⟨(q - k) / 6, (prog_index_iff k k _ j (Or.inl hm1)).mpr ?_⟩
        have hqe : q = k + 6 * ((q - k) / 6) := by omega
        have h2 : k * (k + 6 * ((q - k) / 6)) = k * k + 6 * ((q - k) / 6 * k) := by ring
        rw [hqe] at hqv
        omega
      · right
        have hqk4 : k + 4 ≤ q := by omega
        refine ⟨(q - (k + 4)) / 6, (prog_index_iff k (k + 4) _ j (Or.inr hm2)).mpr ?_⟩
        have hqe : q = k + 4 + 6 * ((q - (k + 4)) / 6) := by omega
        have h2 : k * (k + 4 + 6 * ((q - (k + 4)) / 6))
            = k * (k + 4) + 6 * ((q - (k + 4)) / 6 * k) := by ring
        rw [hqe] at hqv
        omega
  · -- i odd: k % 6 = 5, second slice starts at k*(k+2)/3
    have hk6 : k % 6 = 5 := hk5m hi2
    rw [hi2]
    rw [show k - 2 * 1 + 4 = k + 2 by omega]
    have hm1 : (k * k) % 6 = 1 := by
      rw [Nat.mul_mod, hk6]
    have hm2 : (k * (k + 2)) % 6 = 5 := by
      rw [Nat.mul_mod, Nat.add_mod, hk6]
    constructor
    · rintro (⟨u, hu⟩ | ⟨u, hu⟩)
      · refine ⟨k + 6 * u, by omega, by omega, by omega, ?_⟩
        have h1 := (prog_index_iff k k u j (Or.inl hm1)).mp hu
        have h2 : k * (k + 6 * u) = k * k + 6 * (u * k) := by ring
        omega
      · refine ⟨k + 2 + 6 * u, by omega, by omega, by omega, ?_⟩
        have h1 := (prog_index_iff k (k + 2) u j (Or.inr hm2)).mp hu
        have h2 : k * (k + 2 + 6 * u) = k * (k + 2) + 6 * (u * k) := by ring
        omega
    · rintro ⟨q, hq2, hq3, hqk, hqv⟩
      have hq6 : q % 6 = 1 ∨ q % 6 = 5 := by omega
      rcases hq6 with hq6 | hq6
      · right
        have hqk2 : k + 2 ≤ q := by omega
        refine ⟨(q - (k + 2)) / 6, (prog_index_iff k (k + 2) _ j (Or.inr hm2)).mpr ?_⟩
        have hqe : q = k + 2 + 6 * ((q - (k + 2)) / 6) := by omega
        have h2 : k * (k + 2 + 6 * ((q - (k + 2)) / 6))
            = k * (k + 2) + 6 * ((q - (k + 2)) / 6 * k) := by ring
        rw [hqe] at hqv
        omega
      · left
        refine ⟨(q - k) / 6, (prog_index_iff k k _ j (Or.inl hm1)).mpr ?_⟩
        have hqe : q = k + 6 * ((q - k) / 6) := by omega
        have h2 : k * (k + 6 * ((q - k) / 6)) = k * k + 6 * ((q - k) / 6 * k) := by ring
        rw [hqe] at hqv
        omega

theorem sieveStep_testBit (n m i j : Nat) (hi : 1 ≤ i) (hj : j < wheelSize n) :
    ((sieveStep n m i).testBit j = true ↔
      m.testBit j = true ∧
        ¬ (m.testBit i = true ∧
           ∃ q, q % 2 = 1 ∧ q % 3 ≠ 0 ∧ wheelVal i ≤ q ∧ wheelVal j = wheelVal i * q)) := by
  have hk5 : 5 ≤ wheelVal i := by rw [wheelVal_eq]; omega
  unfold sieveStep
  by_cases hbit : m.testBit i = true
  · rw [if_pos hbit]
    rw [sliceClear_testBit _ _ _ _ _ (by omega) hj, sliceClear_testBit _ _ _ _ _ (by omega) hj]
    have hm := marks_iff i j hi
    constructor
    · rintro ⟨⟨h1, h2⟩, h3⟩
      refine ⟨h1, ?_⟩
      rintro ⟨-, hq⟩
      rcases hm.mpr hq with hp | hp
      · exact h2 hp
      · exact h3 hp
    · rintro ⟨h1, h2⟩
      exact ⟨⟨h1, fun hp => h2 ⟨hbit, hm.mp (Or.inl hp)⟩⟩,
        fun hp => h2 ⟨hbit, hm.mp (Or.inr hp)⟩⟩
  · rw [if_neg hbit]
    constructor
    · intro h
      exact ⟨h, fun hc => hbit hc.1⟩
    · exact fun h => h.1

/-- Index `j` of the wheel sieve is marked after the loop has processed
indices `1..I`: its value factors as (value of an earlier processed index,
which is prime) times a cofactor at least that prime and coprime to 6. -/
def MarkedUpTo (I j : Nat) : Prop :=
  ∃ i q, 1 ≤ i ∧ i ≤ I ∧ (wheelVal i).Prime ∧
    q % 2 = 1 ∧ q % 3 ≠ 0 ∧ wheelVal i ≤ q ∧ wheelVal j = wheelVal i * q

theorem not_markedUpTo_iff_prime (I i₀ : Nat) (h1 : 1 ≤ i₀) (h2 : i₀ ≤ I + 1) :
    ¬ MarkedUpTo I i₀ ↔ (wheelVal i₀).Prime := by
  have hv5 : 5 ≤ wheelVal i₀ := by rw [wheelVal_eq]; omega
  have hv2 : wheelVal i₀ % 2 = 1 := by rw [wheelVal_eq]; omega
  have hv3 : wheelVal i₀ % 3 ≠ 0 := by rw [wheelVal_eq]; omega
  have hself : wheelVal i₀ / 3 = i₀ := by rw [wheelVal_eq]; omega
  constructor
  · intro hnm
    by_contra hnp
    apply hnm
    obtain ⟨p, hp, hpd, hpsq⟩ : ∃ p, p.Prime ∧ p ∣ wheelVal i₀ ∧ p * p ≤ wheelVal i₀ := by
      refine ⟨(wheelVal i₀).minFac, Nat.minFac_prime (by omega), Nat.minFac_dvd _, ?_⟩
      have hsq := Nat.minFac_sq_le_self (by omega) hnp
      rwa [pow_two] at hsq
    have hp2 : p ≠ 2 := by
      rintro rfl
      have := Nat.dvd_iff_mod_eq_zero.mp hpd
      omega
    have hp3 : p ≠ 3 := by
      rintro rfl
      have := Nat.dvd_iff_mod_eq_zero.mp hpd
      omega
    have hp5 : 5 ≤ p := by
      have h2 := hp.two_le
      have h4 : p ≠ 4 := by
        rintro rfl
        norm_num at hp
      omega
    have hpm2 : p % 2 = 1 := by
      have hnd : ¬ (2 ∣ p) := fun hd =>
        hp2 ((Nat.prime_dvd_prime_iff_eq (by norm_num) hp).mp hd).symm
      omega
    have hpm3 : p % 3 ≠ 0 := by
      intro h0
      have h3 : (3 : Nat) ∣ p := by omega
      exact hp3 ((Nat.prime_dvd_prime_iff_eq (by norm_num) hp).mp h3).symm
    obtain ⟨q, hq⟩ := hpd
    have hqp : p ≤ q := by
      rw [hq] at hpsq
      exact Nat.le_of_mul_le_mul_left hpsq (by omega)
    have hq2 : q % 2 = 1 := by
      have hv2c := hv2
      rw [hq, Nat.mul_mod, hpm2] at hv2c
      omega
    have hq3 : q % 3 ≠ 0 := by
      intro h0
      have hv3c := hv3
      rw [hq, Nat.mul_mod, h0, Nat.mul_zero] at hv3c
      omega
    have hwp : wheelVal (p / 3) = p := by rw [wheelVal_eq]; omega
    refine ⟨p / 3, q, by omega, ?_, by rw [hwp]; exact hp, hq2, hq3, by rw [hwp]; exact hqp,
      by rw [hwp]; exact hq⟩
    have hlt : p < wheelVal i₀ := by
      have h2p : 2 * p ≤ p * p := Nat.mul_le_mul_right p hp.two_le
      omega
    have hidx : p / 3 < wheelVal i₀ / 3 := by omega
    omega
  · intro hp hm
    obtain ⟨i, q, hi1, hi2, hip, hq2, hq3, hqk, hqv⟩ := hm
    have hk5 : 5 ≤ wheelVal i := by rw [wheelVal_eq]; omega
    rcases hp.eq_one_or_self_of_dvd _ ⟨q, hqv⟩ with h | h
    · omega
    · rw [h] at hqv
      rcases Nat.eq_zero_or_pos q with h0 | h0
      · rw [h0, Nat.mul_zero] at hqv
        omega
      · have hq1 : q = 1 := by
          by_contra hne
          have h2q : wheelVal i₀ * 2 ≤ wheelVal i₀ * q := Nat.mul_le_mul_left _ (by omega)
          omega
        omega

theorem sieve_fold_invariant (n : Nat) :
    ∀ I, I < wheelSize n →
      ∀ j, j < wheelSize n →
        (((List.range' 1 I).foldl (sieveStep n) (2 ^ wheelSize n - 1)).testBit j = true ↔
          ¬ MarkedUpTo I j) := by
  intro I
  induction I with
  | zero =>
    intro hI j hj
    simp only [List.range'_zero, List.foldl_nil]
    rw [Nat.testBit_two_pow_sub_one]
    constructor
    · intro h
      rintro ⟨i, q, h1, h2, -⟩
      omega
    · intro h
      exact decide_eq_true hj
  | succ I ih =>
    intro hI j hj
    have hIW : I < wheelSize n := by omega
    rw [List.range'_concat 1 I, List.foldl_append]
    simp only [List.foldl_cons, List.foldl_nil]
    rw [show (1 + 1 * I) = I + 1 by omega]
    rw [sieveStep_testBit n _ (I + 1) j (by omega) hj]
    rw [ih hIW j hj]
    rw [ih hIW (I + 1) (by omega)]
    have hprime := not_markedUpTo_iff_prime I (I + 1) (by omega) (le_refl _)
    constructor
    · rintro ⟨ha, hb⟩
      rintro ⟨i, q, hi1, hi2, hip, hq2, hq3, hqk, hqv⟩
      rcases Nat.lt_or_ge i (I + 1) with hii | hii
      · exact ha ⟨i, q, hi1, by omega, hip, hq2, hq3, hqk, hqv⟩
      · have hieq : i = I + 1 := by omega
        subst hieq
        exact hb ⟨hprime.mpr hip, q, hq2, hq3, hqk, hqv⟩
    · intro h
      refine ⟨fun hm => h ?_, ?_⟩
      · obtain ⟨i, q, hi1, hi2, rest⟩ := hm
        exact ⟨i, q, hi1, by omega, rest⟩
      · rintro ⟨hnm, q, hq2, hq3, hqk, hqv⟩
        exact h ⟨I + 1, q, by omega, le_refl _, hprime.mp hnm, hq2, hq3, hqk, hqv⟩

theorem prime_ge5_mod6 (m : Nat) (hp : m.Prime) (h5 : 5 ≤ m) :
    m % 6 = 1 ∨ m % 6 = 5 := by
  have hm2 : ¬ (2 ∣ m) := fun hd => by
    have h := (Nat.prime_dvd_prime_iff_eq (by norm_num) hp).mp hd
    omega
  have hm3 : ¬ (3 ∣ m) := fun hd => by
    have h := (Nat.prime_dvd_prime_iff_eq (by norm_num) hp).mp hd
    omega
  omega

theorem wheelVal_lt (n j : Nat) (hj1 : 1 ≤ j) (hj : j < wheelSize n) : wheelVal j < n := by
  rw [wheelVal_eq]
  revert hj
  unfold wheelSize
  split <;> omega

theorem idx_lt_wheelSize (n m : Nat) (h5 : 5 ≤ m) (hmn : m < n)
    (h6 : m % 6 = 1 ∨ m % 6 = 5) : m / 3 < wheelSize n := by
  unfold wheelSize
  split <;> omega

theorem sqrt_div3_lt_wheelSize (n : Nat) (h : 6 ≤ n) : Nat.sqrt n / 3 < wheelSize n := by
  rcases Nat.lt_or_ge n 9 with h9 | h9
  · have hs : Nat.sqrt n = 2 := by
      have ha : 2 ≤ Nat.sqrt n := Nat.le_sqrt.mpr (by omega)
      have hb : Nat.sqrt n < 3 := Nat.sqrt_lt.mpr (by omega)
      omega
    rw [hs]
    unfold wheelSize
    split <;> omega
  · have ht : 3 ≤ n / 3 := by omega
    have hs : Nat.sqrt n ≤ n / 3 := by
      have hlt : n < (n / 3 + 1) * (n / 3 + 1) := by
        have hn3 : n ≤ 3 * (n / 3) + 2 := by omega
        nlinarith
      have := Nat.sqrt_lt.mpr hlt
      omega
    have hdd : Nat.sqrt n / 3 ≤ n / 3 / 3 := Nat.div_le_div_right hs
    have h33 : n / 3 / 3 < n / 3 := Nat.div_lt_self (by omega) (by omega)
    unfold wheelSize
    split <;> omega

theorem sieveMask_testBit_iff (n : Nat) (hn : 6 ≤ n) (j : Nat) (hj1 : 1 ≤ j)
    (hj : j < wheelSize n) :
    ((sieveMask n).testBit j = true ↔ (wheelVal j).Prime) := by
  have hv5 : 5 ≤ wheelVal j := by rw [wheelVal_eq]; omega
  have hv2 : wheelVal j % 2 = 1 := by rw [wheelVal_eq]; omega
  have hv3 : wheelVal j % 3 ≠ 0 := by rw [wheelVal_eq]; omega
  unfold sieveMask
  rw [isqrt_eq, sieve_fold_invariant n _ (sqrt_div3_lt_wheelSize n hn) j hj]
  constructor
  · intro hnm
    by_contra hnp
    apply hnm
    obtain ⟨p, hp, hpd, hpsq⟩ : ∃ p, p.Prime ∧ p ∣ wheelVal j ∧ p * p ≤ wheelVal j := by
      refine ⟨(wheelVal j).minFac, Nat.minFac_prime (by omega), Nat.minFac_dvd _, ?_⟩
      have hsq := Nat.minFac_sq_le_self (by omega) hnp
      rwa [pow_two] at hsq
    have hp2 : p ≠ 2 := by
      rintro rfl
      have := Nat.dvd_iff_mod_eq_zero.mp hpd
      omega
    have hp3 : p ≠ 3 := by
      rintro rfl
      have := Nat.dvd_iff_mod_eq_zero.mp hpd
      omega
    have hp5 : 5 ≤ p := by
      have h2 := hp.two_le
      have h4 : p ≠ 4 := by
        rintro rfl
        norm_num at hp
      omega
    have hp6 := prime_ge5_mod6 p hp hp5
    obtain ⟨q, hq⟩ := hpd
    have hqp : p ≤ q := by
      rw [hq] at hpsq
      exact Nat.le_of_mul_le_mul_left hpsq (by omega)
    have hpm2 : p % 2 = 1 := by omega
    have hq2 : q % 2 = 1 := by
      have hc := hv2
      rw [hq, Nat.mul_mod, hpm2] at hc
      omega
    have hq3 : q % 3 ≠ 0 := by
      intro h0
      have hc := hv3
      rw [hq, Nat.mul_mod, h0, Nat.mul_zero] at hc
      omega
    have hwp : wheelVal (p / 3) = p := by rw [wheelVal_eq]; omega
    have hvlt : wheelVal j < n := wheelVal_lt n j hj1 hj
    have hple : p ≤ Nat.sqrt n := Nat.le_sqrt.mpr (by omega)
    exact ⟨p / 3, q, by omega, Nat.div_le_div_right hple, by rw [hwp]; exact hp,
      hq2, hq3, by rw [hwp]; exact hqp, by rw [hwp]; exact hq⟩
  · intro hp hm
    obtain ⟨i, q, hi1, hi2, hip, hq2, hq3, hqk, hqv⟩ := hm
    have hk5 : 5 ≤ wheelVal i := by rw [wheelVal_eq]; omega
    rcases hp.eq_one_or_self_of_dvd _ ⟨q, hqv⟩ with h | h
    · omega
    · rw [h] at hqv
      rcases Nat.eq_zero_or_pos q with h0 | h0
      · rw [h0, Nat.mul_zero] at hqv
        omega
      · have hq1 : q = 1 := by
          by_contra hne
          have h2q : wheelVal j * 2 ≤ wheelVal j * q := Nat.mul_le_mul_left _ (by omega)
          omega
        omega

theorem primes_list_structure (n : Nat) (hn : 6 ≤ n) :
    _primes_list n = 2 :: 3 ::
      ((List.range' 1 (wheelSize n - 1)).filter
        (fun i => (sieveMask n).testBit i)).map wheelVal := by
  have hW2 : 2 ≤ wheelSize n := by unfold wheelSize; split <;> omega
  have h0 : (sieveMask n).testBit 0 = true := by
    unfold sieveMask
    rw [isqrt_eq, sieve_fold_invariant n _ (sqrt_div3_lt_wheelSize n hn) 0 (by omega)]
    rintro ⟨i, q, hi1, hi2, hip, hq2, hq3, hqk, hqv⟩
    have hk5 : 5 ≤ wheelVal i := by rw [wheelVal_eq]; omega
    have h0v : wheelVal 0 = 1 := by decide
    rw [h0v] at hqv
    have hge : 5 * 5 ≤ wheelVal i * q := Nat.mul_le_mul hk5 (by omega)
    omega
  unfold _primes_list
  rw [List.range_eq_range', show wheelSize n = (wheelSize n - 1) + 1 by omega,
    List.range'_succ, List.filter_cons_of_pos h0, List.drop_one, List.tail_cons]
  rfl

theorem sorted_lt_ext : ∀ l1 l2 : List Nat, l1.Sorted (· < ·) → l2.Sorted (· < ·) →
    (∀ m, m ∈ l1 ↔ m ∈ l2) → l1 = l2 := by
  intro l1
  induction l1 with
  | nil =>
    intro l2 _ _ hm
    cases l2 with
    | nil => rfl
    | cons b t => exact absurd ((hm b).mpr (List.mem_cons_self b t)) (List.not_mem_nil b)
  | cons a t ih =>
    intro l2 h1 h2 hm
    cases l2 with
    | nil => exact absurd ((hm a).mp (List.mem_cons_self a t)) (List.not_mem_nil a)
    | cons b t2 =>
      have hab : a = b := by
        have ha2 : a ∈ b :: t2 := (hm a).mp (List.mem_cons_self a t)
        have hb1 : b ∈ a :: t := (hm b).mpr (List.mem_cons_self b t2)
        rcases List.mem_cons.mp ha2 with h | h
        · exact h
        · rcases List.mem_cons.mp hb1 with h' | h'
          · exact h'.symm
          · have hba : b < a := List.rel_of_sorted_cons h2 a h
            have hab' : a < b := List.rel_of_sorted_cons h1 b h'
            omega
      subst hab
      have ht : t = t2 := by
        apply ih t2 (List.sorted_cons.mp h1).2 (List.sorted_cons.mp h2).2
        intro m
        constructor
        · intro hmt
          have hmm : m ∈ a :: t2 := (hm m).mp (List.mem_cons_of_mem a hmt)
          rcases List.mem_cons.mp hmm with h | h
          · subst h
            exact absurd ((List.sorted_cons.mp h1).1 m hmt) (lt_irrefl m)
          · exact h
        · intro hmt
          have hmm : m ∈ a :: t := (hm m).mpr (List.mem_cons_of_mem a hmt)
          rcases List.mem_cons.mp hmm with h | h
          · subst h
            exact absurd ((List.sorted_cons.mp h2).1 m hmt) (lt_irrefl m)
          · exact h
      rw [ht]

theorem wheelVal_mono {a b : Nat} (h : a < b) : wheelVal a < wheelVal b := by
  rw [wheelVal_eq, wheelVal_eq]
  omega

theorem primesList_eq_filter (n : Nat) (hn : 6 ≤ n) :
    _primes_list n = (List.range n).filter (fun m => is_prime m) := by
  rw [primes_list_structure n hn]
  apply sorted_lt_ext
  · rw [List.sorted_cons, List.sorted_cons]
    refine ⟨?_, ?_, ?_⟩
    · intro b hb
      rcases List.mem_cons.mp hb with h | h
      · omega
      · obtain ⟨i, hi, rfl⟩ := List.mem_map.mp h
        have hir := (List.mem_filter.mp hi).1
        have hi1 : 1 ≤ i := (List.mem_range'_1.mp hir).1
        rw [wheelVal_eq]
        omega
    · intro b hb
      obtain ⟨i, hi, rfl⟩ := List.mem_map.mp hb
      have hir := (List.mem_filter.mp hi).1
      have hi1 : 1 ≤ i := (List.mem_range'_1.mp hir).1
      rw [wheelVal_eq]
      omega
    · have hpw : ((List.range' 1 (wheelSize n - 1)).filter
          (fun i => (sieveMask n).testBit i)).Pairwise (· < ·) :=
        List.Pairwise.filter _ (List.pairwise_lt_range' 1 (wheelSize n - 1))
      exact hpw.map wheelVal (fun a b hab => wheelVal_mono hab)
  · exact List.Pairwise.filter _ (List.pairwise_lt_range n)
  · intro m
    constructor
    · intro hm
      rw [List.mem_filter, List.mem_range]
      rcases List.mem_cons.mp hm with h | h
      · subst h
        exact ⟨by omega, by decide⟩
      rcases List.mem_cons.mp h with h | h
      · subst h
        exact ⟨by omega, by decide⟩
      · obtain ⟨i, hi, rfl⟩ := List.mem_map.mp h
        obtain ⟨hir, hib⟩ := List.mem_filter.mp hi
        obtain ⟨hi1, hi2⟩ := List.mem_range'_1.mp hir
        have hiW : i < wheelSize n := by omega
        have hp : (wheelVal i).Prime := (sieveMask_testBit_iff n hn i hi1 hiW).mp hib
        exact ⟨wheelVal_lt n i hi1 hiW, (is_prime_iff _).mpr hp⟩
    · intro hm
      obtain ⟨hmr, hmp⟩ := List.mem_filter.mp hm
      rw [List.mem_range] at hmr
      have hp : m.Prime := (is_prime_iff m).mp hmp
      by_cases h2 : m = 2
      · subst h2
        exact List.mem_cons_self _ _
      by_cases h3 : m = 3
      · subst h3
        exact List.mem_cons_of_mem _ (List.mem_cons_self _ _)
      · have h5 : 5 ≤ m := by
          have h2l := hp.two_le
          have h4 : m ≠ 4 := by
            rintro rfl
            norm_num at hp
          omega
        have h6 := prime_ge5_mod6 m hp h5
        have hwp : wheelVal (m / 3) = m := by rw [wheelVal_eq]; omega
        refine List.mem_cons_of_mem _ (List.mem_cons_of_mem _ ?_)
        rw [List.mem_map]
        refine ⟨m / 3, ?_, hwp⟩
        rw [List.mem_filter, List.mem_range'_1]
        have hiW : m / 3 < wheelSize n := idx_lt_wheelSize n m h5 hmr h6
        refine ⟨⟨by omega, by omega⟩, ?_⟩
        rw [sieveMask_testBit_iff n hn (m / 3) (by omega) hiW, hwp]
        exact hp

theorem primesList_eq (n : Nat) :
    _primes_list n = (List.range (max n 5)).filter (fun m => is_prime m) := by
  rcases Nat.lt_or_ge n 6 with h | h
  · rw [show max n 5 = 5 by omega]
    have hr : (List.range 5).filter (fun m => is_prime m) = [2, 3] := by decide
    rw [hr]
    interval_cases n
    · decide
    · decide
    · decide
    · decide
    · decide
    · decide
  · rw [show max n 5 = n by omega]
    exact primesList_eq_filter n h

-- ### Claim C2

/-- C2: for every n ≥ 6, `_primes_list(n)` is exactly the strictly
increasing list of the primes p with 2 ≤ p < n. -/
theorem C2_sieve_primes (n : Nat) (h : 6 ≤ n) :
    _primes_list n = (List.range n).filter (fun m => decide m.Prime) := by
  rw [primesList_eq_filter n h]
  apply List.filter_congr
  intro m _
  cases him : is_prime m with
  | true => exact (decide_eq_true ((is_prime_iff m).mp him)).symm
  | false =>
    symm
    apply decide_eq_false
    intro hp
    rw [(is_prime_iff m).mpr hp] at him
    exact Bool.noConfusion him

theorem C2_sieve_primes_witness :
    (6 ≤ 30 ∧ _primes_list 30 = (List.range 30).filter (fun m => decide m.Prime)) ∧
      _primes_list 30 = [2, 3, 5, 7, 11, 13, 17, 19, 23, 29] :=
  ⟨⟨by decide, C2_sieve_primes 30 (by decide)⟩, by decide⟩

-- ### The small-prime table and its bit set

theorem setBuild_testBit :
    ∀ (l : List Nat) (s j : Nat),
      ((setBuild l s).testBit j = true ↔ (s.testBit j = true ∨ j ∈ l)) := by
  intro l
  induction l with
  | nil =>
    intro s j
    rw [setBuild]
    simp
  | cons p ps ih =>
    intro s j
    rw [setBuild, strictNat_eq, ih, Nat.testBit_lor, Nat.testBit_two_pow]
    rw [Bool.or_eq_true, decide_eq_true_eq, List.mem_cons]
    constructor
    · rintro ((h | h) | h)
      · exact Or.inl h
      · exact Or.inr (Or.inl h.symm)
      · exact Or.inr (Or.inr h)
    · rintro (h | h | h)
      · exact Or.inl (Or.inl h)
      · exact Or.inl (Or.inr h.symm)
      · exact Or.inr h

theorem P10Kset_testBit (m : Nat) : P10Kset.testBit m = true ↔ m ∈ P10K := by
  unfold P10Kset
  rw [setBuild_testBit]
  simp [Nat.zero_testBit]

theorem mem_P10K (p : Nat) : p ∈ P10K ↔ p.Prime ∧ p < 10000 := by
  unfold P10K
  rw [primesList_eq_filter 10000 (by omega), List.mem_filter, List.mem_range]
  constructor
  · rintro ⟨h1, h2⟩
    exact ⟨(is_prime_iff p).mp h2, h1⟩
  · rintro ⟨h1, h2⟩
    exact ⟨h2, (is_prime_iff p).mpr h1⟩

theorem P10K_sorted : List.Pairwise (· < ·) P10K := by
  unfold P10K
  rw [primesList_eq_filter 10000 (by omega)]
  exact List.Pairwise.filter _ (List.pairwise_lt_range 10000)

-- ### Good factorizations out of the trial-division loop

theorem sorted_fst_append (acc : List (Nat × Nat)) (p c : Nat)
    (h : (acc.map Prod.fst).Pairwise (· < ·)) (hlt : ∀ pe ∈ acc, pe.1 < p) :
    ((acc ++ [(p, c)]).map Prod.fst).Pairwise (· < ·) := by
  rw [List.map_append, List.pairwise_append]
  refine ⟨h, by simp, ?_⟩
  intro a ha b hb
  simp only [List.map_cons, List.map_nil, List.mem_singleton] at hb
  subst hb
  obtain ⟨pe, hpe, rfl⟩ := List.mem_map.mp ha
  exact hlt pe hpe

theorem trialLoop_good (fuel : Nat) :
    ∀ ps acc n r, ps.Sublist P10K →
      trialLoop fuel ps acc n = some r →
      (∀ pe ∈ acc, pe.1.Prime) →
      ((acc.map Prod.fst).Pairwise (· < ·)) →
      (∀ pe ∈ acc, ∀ q, q.Prime → q ∣ n → pe.1 < q) →
      (∀ q, q.Prime → q ∣ n → (q ∈ ps ∨ ∀ p ∈ P10K, p < q)) →
      (match r with
       | Sum.inl out => (∀ pe ∈ out, pe.1.Prime) ∧ (out.map Prod.fst).Pairwise (· < ·)
       | Sum.inr am => (∀ pe ∈ am.1, pe.1.Prime) ∧ ((am.1.map Prod.fst).Pairwise (· < ·)) ∧
           (∀ pe ∈ am.1, ∀ q, q.Prime → q ∣ am.2 → pe.1 < q)) := by
  intro ps
  induction ps with
  | nil =>
    intro acc n r hsub h hI1 hI2 hI3 hI4
    rw [trialLoop] at h
    simp only [Option.some.injEq] at h
    subst h
    exact ⟨hI1, hI2, hI3⟩
  | cons p ps ih =>
    intro acc n r hsub h hI1 hI2 hI3 hI4
    have hpP : p ∈ P10K := hsub.subset (List.mem_cons_self p ps)
    have hpprime : p.Prime := ((mem_P10K p).mp hpP).1
    have hpps : ∀ x ∈ ps, p < x := by
      intro x hx
      have := List.Pairwise.sublist hsub P10K_sorted
      exact (List.pairwise_cons.mp this).1 x hx
    rw [trialLoop] at h
    cases he : extract p n fuel with
    | none => rw [he] at h; simp at h
    | some cn =>
      obtain ⟨c, n₂⟩ := cn
      rw [he] at h
      simp only at h
      obtain ⟨hprod, hnd⟩ := extract_spec p fuel n c n₂ he
      have hdvd2 : n₂ ∣ n := ⟨p ^ c, by rw [← hprod]; ring⟩
      -- facts about the updated accumulator
      have hA1 : ∀ pe ∈ trialAppend acc p c, pe.1.Prime := by
        intro pe hpe
        unfold trialAppend at hpe
        split at hpe
        · exact hI1 pe hpe
        · rcases List.mem_append.mp hpe with hh | hh
          · exact hI1 pe hh
          · simp only [List.mem_singleton] at hh
            subst hh
            exact hpprime
      have hA2 : ((trialAppend acc p c).map Prod.fst).Pairwise (· < ·) := by
        unfold trialAppend
        split
        · exact hI2
        · rename_i hc
          refine sorted_fst_append acc p c hI2 (fun pe hpe => ?_)
          have hpd : p ∣ n := by
            have hpow : p ∣ p ^ c := dvd_pow_self p hc
            exact hpow.trans ⟨n₂, hprod.symm⟩
          exact hI3 pe hpe p hpprime hpd
      have hA3 : ∀ pe ∈ trialAppend acc p c, ∀ q, q.Prime → q ∣ n₂ → pe.1 < q := by
        intro pe hpe q hq hqd
        have hqn : q ∣ n := hqd.trans hdvd2
        have hqnep : q ≠ p := by
          rintro rfl
          exact hnd hqd
        unfold trialAppend at hpe
        have hm : pe ∈ acc ∨ pe = (p, c) := by
          split at hpe
          · exact Or.inl hpe
          · rcases List.mem_append.mp hpe with hh | hh
            · exact Or.inl hh
            · simp only [List.mem_singleton] at hh
              exact Or.inr hh
        rcases hm with hh | hh
        · exact hI3 pe hh q hq hqn
        · subst hh
          rcases hI4 q hq hqn with hin | hbig
          · rcases List.mem_cons.mp hin with h2 | h2
            · exact absurd h2 hqnep
            · exact hpps q h2
          · exact hbig p hpP
      have hA4 : ∀ q, q.Prime → q ∣ n₂ → (q ∈ ps ∨ ∀ x ∈ P10K, x < q) := by
        intro q hq hqd
        have hqn : q ∣ n := hqd.trans hdvd2
        have hqnep : q ≠ p := by
          rintro rfl
          exact hnd hqd
        rcases hI4 q hq hqn with hin | hbig
        · rcases List.mem_cons.mp hin with h2 | h2
          · exact absurd h2 hqnep
          · exact Or.inl h2
        · exact Or.inr hbig
      split at h
      · rename_i h1
        simp only [Option.some.injEq] at h
        subst h
        exact ⟨hA1, hA2⟩
      · split at h
        · rename_i h1 h2
          simp only [Option.some.injEq] at h
          subst h
          have hn2 : n₂ ∈ P10K := (P10Kset_testBit n₂).mp h2
          have hn2p : n₂.Prime := ((mem_P10K n₂).mp hn2).1
          constructor
          · intro pe hpe
            rcases List.mem_append.mp hpe with hh | hh
            · exact hA1 pe hh
            · simp only [List.mem_singleton] at hh
              subst hh
              exact hn2p
          · exact sorted_fst_append _ n₂ 1 hA2
              (fun pe hpe => hA3 pe hpe n₂ hn2p dvd_rfl)
        · rename_i h1 h2
          exact ih (trialAppend acc p c) n₂ r (List.sublist_of_cons_sublist hsub) h
            hA1 hA2 hA3 hA4

-- ### Claim C3: the Möbius table

theorem mem_mobiusPrimes (n p : Nat) :
    p ∈ mobiusPrimes n ↔ p.Prime ∧ p < max (Nat.sqrt n + 1) 5 := by
  rw [mobiusPrimes, primesList_eq, List.mem_filter, List.mem_range, isqrt_eq]
  constructor
  · rintro ⟨h1, h2⟩
    exact ⟨(is_prime_iff p).mp h2, h1⟩
  · rintro ⟨h1, h2⟩
    exact ⟨h2, (is_prime_iff p).mpr h1⟩

theorem mobiusPrimes_sorted (n : Nat) : (mobiusPrimes n).Pairwise (· < ·) := by
  rw [mobiusPrimes, primesList_eq]
  exact List.Pairwise.filter _ (List.pairwise_lt_range _)

-- ### the fold characterization

theorem sieveFold_apply (i : Nat) :
    ∀ (l : List Nat) (m₀ : Nat → Int),
      (l.foldl (fun m p => zeroStride (mulStride m p) (p * p)) m₀) i =
      if ∃ p ∈ l, i % (p * p) = 0 then 0
      else m₀ i * ((l.filter (fun p => i % p = 0)).map (fun p : Nat => -(p : Int))).prod := by
  intro l
  induction l with
  | nil => intro m₀; simp
  | cons p l ih =>
    intro m₀
    rw [List.foldl_cons, ih]
    by_cases hl : ∃ q ∈ l, i % (q * q) = 0
    · obtain ⟨q, hq, hqm⟩ := hl
      rw [if_pos ⟨q, hq, hqm⟩, if_pos ⟨q, List.mem_cons_of_mem _ hq, hqm⟩]
    · rw [if_neg hl]
      by_cases hpp : i % (p * p) = 0
      · rw [if_pos ⟨p, List.mem_cons_self p l, hpp⟩]
        simp [zeroStride, hpp]
      · have hcond : ¬ ∃ q ∈ p :: l, i % (q * q) = 0 := by
          rintro ⟨q, hq, hqm⟩
          rcases List.mem_cons.mp hq with rfl | hq2
          · exact hpp hqm
          · exact hl ⟨q, hq2, hqm⟩
        rw [if_neg hcond]
        by_cases hp : i % p = 0
        · rw [List.filter_cons, if_pos (by simp [hp] : decide (i % p = 0) = true)]
          simp only [zeroStride, mulStride, if_neg hpp, if_pos hp, List.map_cons,
            List.prod_cons]
          ring
        · rw [List.filter_cons, if_neg (by simp [hp] : ¬ decide (i % p = 0) = true)]
          simp only [zeroStride, mulStride, if_neg hpp, if_neg hp]

theorem mobiusSieve_apply (n i : Nat) :
    mobiusSieve n i =
      if ∃ p ∈ mobiusPrimes n, i % (p * p) = 0 then 0
      else (((mobiusPrimes n).filter (fun p => i % p = 0)).map (fun p : Nat => -(p : Int))).prod := by
  rw [mobiusSieve, sieveFold_apply]
  split
  · rfl
  · rw [one_mul]

-- ### small helpers

theorem neg_map_prod (L : List Nat) :
    (L.map (fun p : Nat => -(p : Int))).prod = (-1 : Int) ^ L.length * (L.prod : Int) := by
  induction L with
  | nil => simp
  | cons p L ih =>
    simp only [List.map_cons, List.prod_cons, ih, List.length_cons]
    push_cast
    ring

theorem mobiusNorm_zero (i : Nat) : mobiusNorm 0 i = 0 := by
  simp [mobiusNorm]

theorem mobiusNorm_pow (e M i : Nat) (hM : 1 ≤ M) (h : M ≤ i) :
    mobiusNorm ((-1 : Int) ^ e * M) i =
      if M < i then (-1 : Int) ^ (e + 1) else (-1 : Int) ^ e := by
  have hM0 : (0 : Int) < M := by exact_mod_cast hM
  have hMi : (M : Int) ≤ i := by exact_mod_cast h
  rcases Nat.even_or_odd e with he | he
  · have h1 : ((-1 : Int)) ^ e = 1 := he.neg_one_pow
    have h2 : ((-1 : Int)) ^ (e + 1) = -1 := by rw [pow_succ, h1]; ring
    rw [h1, h2, one_mul]
    simp only [mobiusNorm, ne_eq, abs_of_pos hM0]
    rw [if_pos (by omega : ¬ (M : Int) = 0)]
    by_cases hlt : M < i
    · rw [if_pos (by exact_mod_cast hlt : (M : Int) < i)]
      rw [if_neg (by omega : ¬ (0 : Int) < -(M : Int)), if_pos hlt]
    · rw [if_neg (by exact_mod_cast hlt : ¬ (M : Int) < i)]
      rw [if_pos hM0, if_neg hlt]
  · have h1 : ((-1 : Int)) ^ e = -1 := he.neg_one_pow
    have h2 : ((-1 : Int)) ^ (e + 1) = 1 := by rw [pow_succ, h1]; ring
    rw [h1, h2]
    have hx : (-1 : Int) * M = -(M : Int) := by ring
    rw [hx]
    simp only [mobiusNorm, ne_eq, abs_neg, abs_of_pos hM0]
    rw [if_pos (by omega : ¬ -(M : Int) = 0), neg_neg]
    by_cases hlt : M < i
    · rw [if_pos (by exact_mod_cast hlt : (M : Int) < i)]
      rw [if_pos hM0, if_pos hlt]
    · rw [if_neg (by exact_mod_cast hlt : ¬ (M : Int) < i)]
      rw [if_neg (by omega : ¬ (0 : Int) < -(M : Int)), if_neg hlt]

theorem mobiusNorm_sieve_eq_mu (n k : Nat) (hk1 : 1 ≤ k) (hkn : k ≤ n) :
    mobiusNorm (mobiusSieve n k) k = mu k := by
  rw [mobiusSieve_apply]
  by_cases hA : ∃ p ∈ mobiusPrimes n, k % (p * p) = 0
  · rw [if_pos hA, mobiusNorm_zero]
    obtain ⟨p, hpmem, hpm⟩ := hA
    obtain ⟨hpp, _⟩ := (mem_mobiusPrimes n p).mp hpmem
    have hdvd : p * p ∣ k := Nat.dvd_of_mod_eq_zero hpm
    have hk1' : k ≠ 1 := by
      rintro rfl
      have h1 := Nat.le_of_dvd one_pos hdvd
      have h2 := hpp.two_le
      nlinarith
    have hnsq : ¬ Squarefree k := by
      rw [Nat.squarefree_iff_prime_squarefree]
      push_neg
      exact ⟨p, hpp, hdvd⟩
    rw [mu, if_neg hk1', if_neg hnsq]
  · rw [if_neg hA]
    have hsq : Squarefree k := by
      rw [Nat.squarefree_iff_prime_squarefree]
      intro q hq hqk
      have hqp : q.Prime := hq
      have hqq : q * q ≤ k := Nat.le_of_dvd (by omega) hqk
      have hqs : q ≤ Nat.sqrt n := Nat.le_sqrt.mpr (le_trans hqq hkn)
      have hmem : q ∈ mobiusPrimes n :=
        (mem_mobiusPrimes n q).mpr ⟨hqp, by omega⟩
      exact hA ⟨q, hmem, Nat.mod_eq_zero_of_dvd hqk⟩
    set B := max (Nat.sqrt n + 1) 5 with hB
    set LS := (mobiusPrimes n).filter (fun p => k % p = 0) with hLS
    set S := k.primeFactors.filter (fun p => p < B) with hS
    set T := k.primeFactors.filter (fun p => ¬ p < B) with hT
    have hLSnodup : LS.Nodup :=
      (List.Pairwise.filter _ (mobiusPrimes_sorted n)).imp (fun hab => Nat.ne_of_lt hab)
    have hLSfin : LS.toFinset = S := by
      ext q
      rw [List.mem_toFinset, hLS, List.mem_filter, mem_mobiusPrimes, hS,
        Finset.mem_filter, Nat.mem_primeFactors, decide_eq_true_eq]
      constructor
      · rintro ⟨⟨hq1, hq2⟩, hq3⟩
        exact ⟨⟨hq1, Nat.dvd_of_mod_eq_zero hq3, by omega⟩, hq2⟩
      · rintro ⟨⟨hq1, hq2, _⟩, hq3⟩
        exact ⟨⟨hq1, hq3⟩, Nat.mod_eq_zero_of_dvd hq2⟩
    have hST : S.prod id * T.prod id = k := by
      rw [hS, hT, Finset.prod_filter_mul_prod_filter_not]
      exact Nat.prod_primeFactors_of_squarefree hsq
    have hcards : S.card + T.card = k.primeFactors.card := by
      rw [hS, hT]
      exact Finset.filter_card_add_filter_neg_card_eq_card _
    have hLSprod : LS.prod = S.prod id := by
      rw [← hLSfin, List.prod_toFinset id hLSnodup, List.map_id]
    have hLSlen : LS.length = S.card := by
      rw [← hLSfin, List.toFinset_card_of_nodup hLSnodup]
    have hMpos : 0 < S.prod id := by
      refine Finset.prod_pos ?_
      intro q hq
      have := Nat.mem_primeFactors.mp (Finset.mem_filter.mp hq).1
      exact lt_of_lt_of_le one_pos (Nat.le_of_lt this.1.one_lt)
    have hTcard : T.card ≤ 1 := by
      by_contra hT2
      push_neg at hT2
      obtain ⟨q₁, hq₁, q₂, hq₂, hne⟩ := Finset.one_lt_card.mp hT2
      obtain ⟨hq₁f, hq₁B⟩ := Finset.mem_filter.mp hq₁
      obtain ⟨hq₂f, hq₂B⟩ := Finset.mem_filter.mp hq₂
      obtain ⟨hq₁p, hq₁d, _⟩ := Nat.mem_primeFactors.mp hq₁f
      obtain ⟨hq₂p, hq₂d, _⟩ := Nat.mem_primeFactors.mp hq₂f
      have hcop : Nat.Coprime q₁ q₂ := (Nat.coprime_primes hq₁p hq₂p).mpr hne
      have hdd : q₁ * q₂ ∣ k := Nat.Coprime.mul_dvd_of_dvd_of_dvd hcop hq₁d hq₂d
      have hle : q₁ * q₂ ≤ k := Nat.le_of_dvd (by omega) hdd
      have hgt : n < q₁ * q₂ :=
        lt_of_lt_of_le (Nat.lt_succ_sqrt n)
          (Nat.mul_le_mul (by omega) (by omega))
      omega
    have hv : (LS.map (fun p : Nat => -(p : Int))).prod
        = (-1 : Int) ^ S.card * ((S.prod id : Nat) : Int) := by
      rw [neg_map_prod, hLSlen, hLSprod]
    rw [hv]
    rcases Nat.le_one_iff_eq_zero_or_eq_one.mp hTcard with hT0 | hT1
    · have hTe : T = ∅ := Finset.card_eq_zero.mp hT0
      have hkM : S.prod id = k := by
        rw [hTe, Finset.prod_empty, mul_one] at hST
        exact hST
      rw [mobiusNorm_pow _ _ _ hMpos (by omega)]
      rw [if_neg (by omega : ¬ S.prod id < k)]
      rw [mu]
      by_cases hk1e : k = 1
      · rw [if_pos hk1e]
        have : S.card = 0 := by
          rw [hS, hk1e]
          simp [Nat.primeFactors_one]
        rw [this, pow_zero]
      · rw [if_neg hk1e, if_pos hsq]
        have : S.card = k.primeFactors.card := by
          rw [hTe] at hcards
          simpa using hcards
        rw [this]
    · obtain ⟨q, hq⟩ := Finset.card_eq_one.mp hT1
      have hTq : T.prod id = q := by rw [hq, Finset.prod_singleton]; rfl
      have hqT : q ∈ T := by rw [hq]; exact Finset.mem_singleton_self q
      obtain ⟨hqf, hqB⟩ := Finset.mem_filter.mp hqT
      obtain ⟨hqp, hqd, _⟩ := Nat.mem_primeFactors.mp hqf
      have hq2 : 2 ≤ q := hqp.two_le
      have hkMq : S.prod id * q = k := by rw [← hTq]; exact hST
      have hMlt : S.prod id < k := by nlinarith
      rw [mobiusNorm_pow _ _ _ hMpos (by omega)]
      rw [if_pos hMlt, mu]
      have hk1e : k ≠ 1 := by
        rintro rfl
        have := Nat.le_of_dvd one_pos hqd
        omega
      rw [if_neg hk1e, if_pos hsq]
      have : S.card + 1 = k.primeFactors.card := by
        rw [hq] at hcards
        simpa using hcards
      rw [this]

/-- C3: for every n ≥ 1 and every k with 1 ≤ k ≤ n, the table
`_mobius_list(n)` holds at index k exactly the Möbius function μ(k):
1 at k = 1, 0 when some squared prime divides k, and (−1)^r with r the
number of distinct prime factors of k otherwise (index 0 unspecified). -/
theorem C3_mobius_table (n k : Nat) (hn : 1 ≤ n) (hk1 : 1 ≤ k) (hkn : k ≤ n) :
    _mobius_list n k = mu k := by
  simp only [_mobius_list]
  rw [if_pos ⟨hk1, hkn⟩]
  exact mobiusNorm_sieve_eq_mu n k hk1 hkn

theorem C3_mobius_table_witness :
    (1 ≤ 10 ∧ 1 ≤ 6 ∧ 6 ≤ 10) ∧ _mobius_list 10 6 = mu 6 :=
  ⟨⟨by decide, by decide, by decide⟩,
    C3_mobius_table 10 6 (by decide) (by decide) (by decide)⟩

-- ### Claims C5, C7, C9: degenerate Pollard-rho outputs

theorem rhoPhase_rand_false (σ σ' : Nat → Nat × Nat) :
    ∀ f k k' acc n, rhoPhase σ false k f acc n = rhoPhase σ' false k' f acc n := by
  intro f
  induction f with
  | zero => intro k k' acc n; rfl
  | succ f ih =>
    intro k k' acc n
    rw [rhoPhase, rhoPhase]
    by_cases h1 : n = 1
    · rw [if_pos h1, if_pos h1]
    · rw [if_neg h1, if_neg h1]
      by_cases h2 : is_prime n = true
      · rw [if_pos h2, if_pos h2]
      · rw [if_neg h2, if_neg h2]
        have hpr : _pollard_rho n false (σ k) (f + 1) =
            _pollard_rho n false (σ' k') (f + 1) := rfl
        rw [hpr]
        cases hp : _pollard_rho n false (σ' k') (f + 1) with
        | none => rfl
        | some p =>
          simp only
          cases he : extract p n (f + 1) with
          | none => rfl
          | some cn =>
            obtain ⟨c, n₂⟩ := cn
            exact ih (k + 1) (k' + 1) (acc ++ [(p, c)]) n₂

/-- C9 (amended): with `rand=False` (the default of `all_divisors`) the
output of `prime_divisor_decomposition` and of `all_divisors` does not
depend on the stream of random seed pairs at all, so two calls with
identical arguments agree; the claimed idempotence fails only for
`rand=True` (see the counterexample). -/
theorem C9_rand_false_seed_independent (n fuel : Nat) (σ σ' : Nat → Nat × Nat) :
    prime_divisor_decomposition n false σ fuel =
        prime_divisor_decomposition n false σ' fuel ∧
      all_divisors n false σ fuel = all_divisors n false σ' fuel := by
  have hd : prime_divisor_decomposition n false σ fuel =
      prime_divisor_decomposition n false σ' fuel := by
    rw [prime_divisor_decomposition, prime_divisor_decomposition]
    cases extract 2 n fuel with
    | none => rfl
    | some cn =>
      obtain ⟨c, n₁⟩ := cn
      simp only
      cases trialLoop fuel P10K (trialAppend [] 2 c) n₁ with
      | none => rfl
      | some r =>
        cases r with
        | inl res => rfl
        | inr am =>
          obtain ⟨acc₂, m⟩ := am
          exact rhoPhase_rand_false σ σ' fuel 0 0 acc₂ m
  refine ⟨hd, ?_⟩
  rw [all_divisors, all_divisors]
  by_cases h1 : n = 1
  · rw [if_pos h1, if_pos h1]
  · rw [if_neg h1, if_neg h1, hd]

set_option maxHeartbeats 40000000

/-- C5 (counterexample): for n = 104405461 = 10069 · 10369 with
`rand=False`, Pollard's rho degenerates (the gcd reaches n itself and is
returned unchanged), so `prime_divisor_decomposition` returns the single
pair (104405461, 1) whose first component is composite — the claimed
primality of every first component fails. -/
theorem C5_composite_component :
    prime_divisor_decomposition 104405461 false (fun _ => (1, 1)) 1000 =
        some [(104405461, 1)] ∧ ¬ (104405461 : Nat).Prime := by
  refine ⟨by decide, fun hp => ?_⟩
  rcases hp.eq_one_or_self_of_dvd 10069 ⟨10369, by norm_num⟩ with h | h <;> omega

/-- C7 (counterexample): on the same degenerate input the divisor list
computed by `all_divisors` is [1, 104405461]; the genuine divisor 10069 is
missing, so the list is not the list of all positive divisors. -/
theorem C7_missing_divisor :
    all_divisors 104405461 false (fun _ => (1, 1)) 1000 = some [1, 104405461] ∧
      (10069 : Nat) ∣ 104405461 ∧ (10069 : Nat) ∉ [1, 104405461] :=
  ⟨by decide, ⟨10369, by norm_num⟩, by decide⟩

/-- C9 (counterexample): with `rand=True`, two different streams of random
seed pairs — (x=2, c=6) versus (x=2, c=7) — make the two rho-found factors
of 104405461 = 10069 · 10369 appear in opposite orders, so two calls with
identical arguments need not return the same sequence. -/
theorem C9_seed_dependent :
    prime_divisor_decomposition 104405461 true (fun _ => (2, 6)) 1000 =
        some [(10069, 1), (10369, 1)] ∧
      prime_divisor_decomposition 104405461 true (fun _ => (2, 7)) 1000 =
        some [(10369, 1), (10069, 1)] ∧
      ([((10069 : Nat), (1 : Nat)), (10369, 1)] : List (Nat × Nat)) ≠
        [(10369, 1), (10069, 1)] :=
  ⟨by decide, by decide, by decide⟩
